import Mathlib

/-!
Verification of the arithmetic stochastic-local-search core
(`src/ast/sls/sls_arith_base.cpp` / `.h`) against its natural-language
specification.

The engine is the class template `arith_base<num_t>`, instantiated at
`checked_int64<true>` and at `rational`.  The state-level embedding below
models integer-valued variables (the `checked_int64` instantiation on the
overflow-free fragment, equivalently the `rational` instantiation restricted
to integer-sorted variables): values are `Int`, `div` is truncating division
(`Int.tdiv`), `mod` is the non-negative modulo (`Int.emod`), and C++ `%` /
`%=` is the truncation-based remainder (`Int.tmod`).  The numeric class
itself is not part of the given sources, so those three operations are
modelled from the spec (section 3: "truncating integer division (div),
non-negative modulo (mod)").

For the distance-to-truth table (claim about `dtt`) we additionally embed
`dtt` over `Rat`, faithful to the `rational` instantiation where atoms over
real-sorted terms carry non-integral values.

State-mutating procedures (`update`, the repair loops, `factor`, the Newton
square-root loop) contain `while` loops / recursion that the C++ source does
not bound syntactically; they are embedded with an explicit fuel parameter
returning `Option`, with `none` modelling divergence.  Sufficient-fuel lemmas
recover the terminating behaviour.
-/

namespace SlsArith

/-- Kinds of linear atoms, from `enum class ineq_kind { EQ, LE, LT }`. -/
inductive IneqKind where
  | EQ
  | LE
  | LT
deriving DecidableEq, Repr

/-- An atom over `Rat`, carrying only the fields `dtt` reads:
`m_op`, `m_coeff` (the inherited `linear_term::m_coeff`) and the cached
`m_args_value`. -/
structure QIneq where
  m_op : IneqKind
  m_coeff : Rat
  m_args_value : Rat
deriving DecidableEq, Repr

/-- Embedding of `arith_base<num_t>::dtt(bool sign, num_t const& args,
ineq const& ineq)` (sls_arith_base.cpp lines 69-104), at `num_t = rational`. -/
def dttQ (sign : Bool) (args : Rat) (i : QIneq) : Rat :=
  match i.m_op with
  | IneqKind.LE =>
      if sign then
        if args + i.m_coeff ≤ 0 then -i.m_coeff - args + 1 else 0
      else
        if args + i.m_coeff ≤ 0 then 0 else args + i.m_coeff
  | IneqKind.EQ =>
      if sign then
        if args + i.m_coeff = 0 then 1 else 0
      else
        if args + i.m_coeff = 0 then 0 else 1
  | IneqKind.LT =>
      if sign then
        if args + i.m_coeff < 0 then -i.m_coeff - args else 0
      else
        if args + i.m_coeff < 0 then 0 else args + i.m_coeff + 1

/-- The distance-to-truth table exactly as the specification states it
(spec section 4.1): for `<` with `sign = false` it prescribes
`max(0, args_value + k + 1)`. -/
def dttSpecTable (sign : Bool) (args : Rat) (i : QIneq) : Rat :=
  match i.m_op with
  | IneqKind.LE =>
      if sign then
        if args + i.m_coeff > 0 then 0 else -i.m_coeff - args + 1
      else
        max 0 (args + i.m_coeff)
  | IneqKind.EQ =>
      if sign then
        if args + i.m_coeff ≠ 0 then 0 else 1
      else
        if args + i.m_coeff = 0 then 0 else 1
  | IneqKind.LT =>
      if sign then
        if args + i.m_coeff ≥ 0 then 0 else -i.m_coeff - args
      else
        max 0 (args + i.m_coeff + 1)

/-- The amended table: identical to the specification's table except in the
`<` / `sign = false` entry, which is `0` when `args_value + k < 0` and
`args_value + k + 1` otherwise (the two differ only on non-integral
`args_value + k` in `(-1, 0)`). -/
def dttAmendedTable (sign : Bool) (args : Rat) (i : QIneq) : Rat :=
  match i.m_op with
  | IneqKind.LE =>
      if sign then
        if args + i.m_coeff > 0 then 0 else -i.m_coeff - args + 1
      else
        max 0 (args + i.m_coeff)
  | IneqKind.EQ =>
      if sign then
        if args + i.m_coeff ≠ 0 then 0 else 1
      else
        if args + i.m_coeff = 0 then 0 else 1
  | IneqKind.LT =>
      if sign then
        if args + i.m_coeff ≥ 0 then 0 else -i.m_coeff - args
      else
        if args + i.m_coeff < 0 then 0 else args + i.m_coeff + 1

/-! ### Integer square root (`arith_base::sqrt`, lines 1456-1471) -/

/-- The Newton iteration `while (x1 < x0) { x0 = x1; x1 = div(x0 + div(n, x0), 2); }`
of `arith_base<num_t>::sqrt`, with fuel; `x1` is recomputed from the current
`x0` before each guard test, exactly as in the source. -/
def sqrtLoopF : Nat → Int → Int → Option Int
  | 0, _, _ => none
  | f + 1, n, x0 =>
      let x1 := (x0 + n.tdiv x0).tdiv 2
      if x1 < x0 then sqrtLoopF f n x1 else some x0

/-- Embedding of `arith_base<num_t>::sqrt(num_t n)`: `if (n <= 1) return n;`
then the Newton loop starting from `x0 = div(n, 2)`.  The fuel `n.toNat + 1`
is an upper bound on the number of loop iterations. -/
def slsSqrt (n : Int) : Option Int :=
  if n ≤ 1 then some n else sqrtLoopF (n.toNat + 1) n (n.tdiv 2)

/-! ### Small-prime factorisation (`arith_base::factor`, lines 1473-1495) -/

/-- Modelled from the spec: the numeric class's divisibility test
`divides(a, b)` ("divisibility check", spec section 3); the numeric class
itself is not part of the given sources.  Decided through the non-negative
modulo. -/
def numDivides (a b : Int) : Bool := b.emod a == 0

/-- One trial-division loop of `factor`:
`while (mod(n, d) == 0) { m_factors.push_back(d); n = div(n, d); }`,
with fuel (the C++ loop does not terminate at `n = 0`). -/
def extractF (d : Int) : Nat → Int → Option (List Int × Int)
  | 0, _ => none
  | f + 1, n =>
      if n.emod d = 0 then
        match extractF d f (n.tdiv d) with
        | none => none
        | some (l, n') => some (d :: l, n')
      else some ([], n)

/-- The 8-step wheel `static int increments[8] = { 4, 2, 4, 2, 4, 6, 2, 6 };`. -/
def wheelIncrements : List Int := [4, 2, 4, 2, 4, 6, 2, 6]

/-- The wheel loop of `factor`:
`for (auto d = num_t(7); d * d <= n && j < 3; d += num_t(increments[i++]), ++j)`
with the body extracting all factors `d` and wrapping `i` at 8.  `rem` is a
structural counter maintained equal to `3 - j`; since the guard `j < 3` is
false exactly when `rem = 0`, the `rem = 0` case returns the guard-false
result. -/
def wheelF (f : Nat) : Nat → Nat → Nat → Int → Int → Option (List Int × Int)
  | 0, _, _, _, n => some ([], n)
  | rem + 1, i, j, d, n =>
      if d * d ≤ n ∧ j < 3 then
        match extractF d f n with
        | none => none
        | some (l, n') =>
            match wheelF f rem ((if i = 8 then 0 else i) + 1) (j + 1)
                (d + wheelIncrements.getD (if i = 8 then 0 else i) 0) n' with
            | none => none
            | some (l2, n'') => some (l ++ l2, n'')
      else some ([], n)

/-- Embedding of `arith_base<num_t>::factor(num_t n)`: divide out 2, 3, 5,
run the wheel from `d = 7`, and push the remainder when it exceeds 1. -/
def factorF (f : Nat) (n : Int) : Option (List Int) :=
  match extractF 2 f n with
  | none => none
  | some (l2, n2) =>
      match extractF 3 f n2 with
      | none => none
      | some (l3, n3) =>
          match extractF 5 f n3 with
          | none => none
          | some (l5, n5) =>
              match wheelF f 3 0 0 7 n5 with
              | none => none
              | some (lw, nw) =>
                  some (l2 ++ l3 ++ l5 ++ lw ++ (if nw > 1 then [nw] else []))

/-- `factor` with fuel sufficient for every terminating input. -/
def factorRun (n : Int) : Option (List Int) := factorF (n.natAbs + 1) n

/-- The argument `repair_mul` hands to `factor` (sls_arith_base.cpp lines
1230-1233): `n = div(val, coeff); if (!divides(coeff, val) && rand(2) == 0)
n = div(val + coeff - 1, coeff); factor(abs(n))`.  `r2` models `ctx.rand(2)`. -/
def repairMulFactorArg (val coeff : Int) (r2 : Nat) : Int :=
  let n0 := val.tdiv coeff
  let n1 := if ¬ (numDivides coeff val = true) ∧ r2 = 0
            then (val + coeff - 1).tdiv coeff else n0
  |n1|

/-! ### Engine state

Embedding of the mutable state of `arith_base<num_t>` at integer values
(`num_t = checked_int64<true>` on its overflow-free fragment): variable
table, atom table, `add`/`mul`/op definition tables, and the controller's
literal-truth table (the only controller state the core reads and writes,
through `ctx.is_true` / `ctx.flip`). -/

/-- `struct bound { bool is_strict = false; num_t value; }`. -/
structure VBound where
  is_strict : Bool
  value : Int
deriving DecidableEq, Repr

/-- The arithmetic operator kinds the engine dispatches on
(`arith_op_kind`); `LAST_ARITH_OP` is the "no operator" marker. -/
inductive ArithOp where
  | OP_ADD
  | OP_MUL
  | OP_MOD
  | OP_REM
  | OP_IDIV
  | OP_DIV
  | OP_ABS
  | OP_TO_INT
  | OP_TO_REAL
  | OP_POWER
  | LAST_ARITH_OP
deriving DecidableEq, Repr

/-- `enum class var_sort { INT, REAL }`. -/
inductive VarSort where
  | INT
  | REAL
deriving DecidableEq, Repr

/-- `struct ineq : public linear_term` over `Int`: argument list
`[(coeff, var)]`, constant `m_coeff`, operator, cached `m_args_value`, and
the ephemeral pivot (`UINT_MAX` sentinel modelled as `none`). -/
structure ZIneq where
  m_args : List (Int × Nat)
  m_coeff : Int
  m_op : IneqKind
  m_args_value : Int
  m_var_to_flip : Option Nat
deriving DecidableEq, Repr

/-- `struct var_info`; the external AST handle `m_expr` is an opaque
expression identifier. -/
structure VarInfo where
  m_expr : Nat
  m_value : Int
  m_best_value : Int
  m_sort : VarSort
  m_op : ArithOp
  m_def_idx : Option Nat
  m_bool_vars : List (Int × Nat)
  m_muls : List Nat
  m_adds : List Nat
  m_lo : Option VBound
  m_hi : Option VBound
deriving DecidableEq, Repr

instance : Inhabited VarInfo :=
  ⟨⟨0, 0, 0, VarSort.INT, ArithOp.LAST_ARITH_OP, none, [], [], [], none, none⟩⟩

/-- `struct mul_def { unsigned m_var; num_t m_coeff; unsigned_vector m_monomial; }`. -/
structure MulDef where
  m_var : Nat
  m_coeff : Int
  m_monomial : List Nat
deriving DecidableEq, Repr

/-- `struct add_def : public linear_term { unsigned m_var; }`. -/
structure AddDef where
  m_args : List (Int × Nat)
  m_coeff : Int
  m_var : Nat
deriving DecidableEq, Repr

/-- `struct op_def { unsigned m_var; arith_op_kind m_op; unsigned m_arg1, m_arg2; }`. -/
structure OpDef where
  m_var : Nat
  m_op : ArithOp
  m_arg1 : Nat
  m_arg2 : Nat
deriving DecidableEq, Repr

/-- The engine state: the member vectors of `arith_base` that the claims
concern, plus the controller's literal-truth table. -/
structure EState where
  m_vars : List VarInfo
  m_bool_vars : List (Option ZIneq)
  m_muls : List MulDef
  m_adds : List AddDef
  m_ops : List OpDef
  truth : List Bool
deriving DecidableEq, Repr

def getVar (s : EState) (v : Nat) : VarInfo := s.m_vars.getD v default

/-- `num_t value(var_t v) const { return m_vars[v].m_value; }` -/
def value (s : EState) (v : Nat) : Int := (getVar s v).m_value

/-- `bool is_int(var_t v) const { return m_vars[v].m_sort == var_sort::INT; }` -/
def isInt (s : EState) (v : Nat) : Bool := (getVar s v).m_sort == VarSort.INT

def setVarValue (s : EState) (v : Nat) (n : Int) : EState :=
  { s with m_vars := s.m_vars.set v { getVar s v with m_value := n } }

/-- `ineq* atom(sat::bool_var bv)` — the atom owned by a Boolean variable. -/
def getAtom (s : EState) (bv : Nat) : Option ZIneq := s.m_bool_vars.getD bv none

def setAtom (s : EState) (bv : Nat) (a : ZIneq) : EState :=
  { s with m_bool_vars := s.m_bool_vars.set bv (some a) }

/-- The controller's `is_true(literal(bv, false))`. -/
def ctxIsTrue (s : EState) (bv : Nat) : Bool := s.truth.getD bv false

/-- The controller's `flip(bv)`: toggles the literal-truth table entry. -/
def ctxFlip (s : EState) (bv : Nat) : EState :=
  { s with truth := s.truth.set bv (! ctxIsTrue s bv) }

/-- `bool sign(sat::bool_var v) const { return !ctx.is_true(literal(v, false)); }` -/
def signB (s : EState) (bv : Nat) : Bool := ! ctxIsTrue s bv

/-- `dtt` at `num_t = Int` (same source function as `dttQ`, the engine's
working instantiation). -/
def dttZ (sign : Bool) (args : Int) (i : ZIneq) : Int :=
  match i.m_op with
  | IneqKind.LE =>
      if sign then
        if args + i.m_coeff ≤ 0 then -i.m_coeff - args + 1 else 0
      else
        if args + i.m_coeff ≤ 0 then 0 else args + i.m_coeff
  | IneqKind.EQ =>
      if sign then
        if args + i.m_coeff = 0 then 1 else 0
      else
        if args + i.m_coeff = 0 then 0 else 1
  | IneqKind.LT =>
      if sign then
        if args + i.m_coeff < 0 then -i.m_coeff - args else 0
      else
        if args + i.m_coeff < 0 then 0 else args + i.m_coeff + 1

/-- `ineq::is_true()` (sls_arith_base.cpp lines 23-33). -/
def ZIneq.isTrue (i : ZIneq) : Bool :=
  match i.m_op with
  | IneqKind.LE => decide (i.m_args_value + i.m_coeff ≤ 0)
  | IneqKind.EQ => decide (i.m_args_value + i.m_coeff = 0)
  | IneqKind.LT => decide (i.m_args_value + i.m_coeff < 0)

/-- `arith_base::in_bounds(v, value)` (lines 535-549). -/
def inBounds (s : EState) (v : Nat) (val : Int) : Bool :=
  let vi := getVar s v
  !(vi.m_lo.any (fun b => decide (val < b.value)) ||
    vi.m_lo.any (fun b => b.is_strict && decide (val ≤ b.value)) ||
    vi.m_hi.any (fun b => decide (val > b.value)) ||
    vi.m_hi.any (fun b => b.is_strict && decide (val ≥ b.value)))

/-- `arith_base::is_fixed(v)` (lines 551-557): both bounds present, equal,
and equal to the current value. -/
def isFixed (s : EState) (v : Nat) : Bool :=
  let vi := getVar s v
  match vi.m_lo, vi.m_hi with
  | some lo, some hi => lo.value == hi.value && lo.value == value s v
  | _, _ => false

/-- The atom loop of `update` (lines 591-602): for each `(coeff, bv)` of
`v.m_bool_vars`, shift the cached `m_args_value` by `coeff * (new - old)`
and ask the controller to flip `bv` when the atom's distance-to-truth under
the current sign became nonzero. -/
def updBoolVarsStep (delta : Int) (s' : EState) (p : Int × Nat) : EState :=
  match getAtom s' p.2 with
  | none => s'
  | some a =>
      let a' := { a with m_args_value := a.m_args_value + p.1 * delta }
      let s'' := setAtom s' p.2 a'
      if dttZ (signB s'' p.2) a'.m_args_value a' ≠ 0 then ctxFlip s'' p.2
      else s''

def updBoolVars (delta : Int) (bvs : List (Int × Nat)) (s : EState) : EState :=
  bvs.foldl (updBoolVarsStep delta) s

/-- The `mul` propagation loop of `update` (lines 609-616): recompute each
containing monomial's product and recursively update its output variable on
disagreement.  `upd` is the recursive `update` at the smaller fuel. -/
def propagateMulsStep (upd : EState → Nat → Int → Option (Bool × EState))
    (st : EState) (idx : Nat) : Option EState :=
  let md := st.m_muls.getD idx ⟨0, 0, []⟩
  let prod := md.m_monomial.foldl (fun p w => p * value st w) md.m_coeff
  if value st md.m_var ≠ prod then (upd st md.m_var prod).map (·.2)
  else pure st

def propagateMuls (upd : EState → Nat → Int → Option (Bool × EState))
    (idxs : List Nat) (s : EState) : Option EState :=
  idxs.foldlM (propagateMulsStep upd) s

/-- The `add` propagation loop of `update` (lines 617-625), including the
source's comparison of the recomputed sum against `ad.m_coeff` (not against
`value(ad.m_var)`). -/
def propagateAddsStep (upd : EState → Nat → Int → Option (Bool × EState))
    (st : EState) (idx : Nat) : Option EState :=
  let ad := st.m_adds.getD idx ⟨[], 0, 0⟩
  let sum := ad.m_args.foldl (fun acc p => acc + p.1 * value st p.2) ad.m_coeff
  if sum ≠ ad.m_coeff then (upd st ad.m_var sum).map (·.2)
  else pure st

def propagateAdds (upd : EState → Nat → Int → Option (Bool × EState))
    (idxs : List Nat) (s : EState) : Option EState :=
  idxs.foldlM (propagateAddsStep upd) s

/-- Embedding of `arith_base<num_t>::update(var_t v, num_t const& new_value)`
(lines 559-628), with fuel bounding the recursion (the C++ recursion is
unbounded when a variable's recorded bounds are inconsistent).  The external
notification `ctx.new_value_eh(e)` has no effect on the modelled state. -/
def update : Nat → EState → Nat → Int → Option (Bool × EState)
  | 0, _, _, _ => none
  | fuel + 1, s, v, new_value =>
      let vi := getVar s v
      let old_value := vi.m_value
      if old_value = new_value then some (true, s)
      else if inBounds s v new_value then
        let s1 := updBoolVars (new_value - old_value) vi.m_bool_vars s
        let s2 := setVarValue s1 v new_value
        match propagateMuls (update fuel) vi.m_muls s2 with
        | none => none
        | some s3 =>
            match propagateAdds (update fuel) vi.m_adds s3 with
            | none => none
            | some s4 => some (true, s4)
      else if vi.m_lo.any (fun lo =>
          isInt s v && !lo.is_strict && decide (new_value < lo.value)) then
        match vi.m_lo with
        | some lo =>
            if lo.value ≠ old_value then update fuel s v lo.value
            else if inBounds s v (old_value + 1) then update fuel s v (old_value + 1)
            else some (false, s)
        | none => some (false, s)
      else if vi.m_hi.any (fun hi =>
          isInt s v && !hi.is_strict && decide (new_value > hi.value)) then
        match vi.m_hi with
        | some hi =>
            if hi.value ≠ old_value then update fuel s v hi.value
            else if inBounds s v (old_value - 1) then update fuel s v (old_value - 1)
            else some (false, s)
        | none => some (false, s)
      else some (false, s)

/-- The add-definition invariant the source asserts in
`arith_base::invariant()` (lines 1710-1727): for every add definition,
`m_coeff + Σ cᵢ·value(vᵢ) == value(m_var)`. -/
def addInvariantHolds (s : EState) : Bool :=
  s.m_adds.all (fun ad =>
    ad.m_args.foldl (fun acc p => acc + p.1 * value s p.2) ad.m_coeff == value s ad.m_var)

/-- The mul-definition invariant of `arith_base::invariant()`
(lines 1694-1709): `m_coeff · Π value(vᵢ) == value(m_var)`. -/
def mulInvariantHolds (s : EState) : Bool :=
  s.m_muls.all (fun md =>
    md.m_monomial.foldl (fun p w => p * value s w) md.m_coeff == value s md.m_var)

/-- Witness state for the failed-update atomicity theorem: one integer
variable fixed at `0` by its bounds. -/
def updAtomicState : EState :=
  { m_vars := [⟨0, 0, 0, VarSort.INT, ArithOp.LAST_ARITH_OP, none, [], [], [],
      some ⟨false, 0⟩, some ⟨false, 0⟩⟩],
    m_bool_vars := [], m_muls := [], m_adds := [], m_ops := [], truth := [] }

/-- State exhibiting the `add`-propagation slip in `update`:
variable 0 (`x`) has value 1 and feeds the add definition `r := 1·x`
(constant 0) whose output variable 1 (`r`) also has value 1, so the
definition equation holds on entry. -/
def addBugState : EState :=
  { m_vars := [
      ⟨0, 1, 0, VarSort.INT, ArithOp.LAST_ARITH_OP, none, [], [], [0], none, none⟩,
      ⟨1, 1, 0, VarSort.INT, ArithOp.OP_ADD, some 0, [], [], [], none, none⟩],
    m_bool_vars := [], m_muls := [], m_adds := [⟨[(1, 0)], 0, 1⟩], m_ops := [],
    truth := [] }

/-! ### Operator definitions: `mk_op` and `repair_up` -/

/-- The initial evaluation `mk_op` performs (lines 760-785), as a function
of the operator kind, the result variable `v` (`mk_var(e)`), and the
first-argument variable `w` (`mk_term(x)`): the divisor consulted is
`value(v)` — the result variable itself — and the expression's second
operand `y` is never turned into a variable at all (`m_ops.push_back({v, k,
v, w})` stores the result variable and `x`).  Kinds the switch does not
handle raise `NOT_IMPLEMENTED_YET`, modelled as `none`. -/
def mkOpInitialVal (s : EState) (k : ArithOp) (v w : Nat) : Option Int :=
  match k with
  | ArithOp.OP_MOD => some (if value s v = 0 then 0 else (value s w).emod (value s v))
  | ArithOp.OP_REM => some (if value s v = 0 then 0 else (value s w).tmod (value s v))
  | ArithOp.OP_IDIV => some (if value s v = 0 then 0 else (value s w).tdiv (value s v))
  | ArithOp.OP_DIV => some (if value s v = 0 then 0 else (value s w).tdiv (value s v))
  | ArithOp.OP_ABS => some |value s w|
  | _ => none

/-- Embedding of `arith_base<num_t>::repair_up(app* e)` (lines 919-974) at
the variable `v` the expression maps to: re-evaluate `v`'s definition from
the stored arguments and `update` the output.  For the binary operator
kinds, `v1 = value(m_arg1)` and `v2 = value(m_arg2)` where the op definition
stores `(m_arg1, m_arg2) = (result variable, first operand)`.  The
`NOT_IMPLEMENTED_YET` default is modelled as `none`. -/
def repairUp (fuel : Nat) (s : EState) (v : Nat) : Option EState :=
  let vi := getVar s v
  match vi.m_def_idx with
  | none => some s
  | some idx =>
      match vi.m_op with
      | ArithOp.LAST_ARITH_OP => some s
      | ArithOp.OP_ADD =>
          let ad := s.m_adds.getD idx ⟨[], 0, 0⟩
          let sum := ad.m_args.foldl (fun acc p => acc + p.1 * value s p.2) ad.m_coeff
          (update fuel s v sum).map (·.2)
      | ArithOp.OP_MUL =>
          let md := s.m_muls.getD idx ⟨0, 0, []⟩
          let prod := md.m_monomial.foldl (fun p w => p * value s w) md.m_coeff
          (update fuel s v prod).map (·.2)
      | ArithOp.OP_MOD =>
          let od := s.m_ops.getD idx ⟨0, ArithOp.LAST_ARITH_OP, 0, 0⟩
          let v1 := value s od.m_arg1
          let v2 := value s od.m_arg2
          (update fuel s v (if v2 = 0 then 0 else v1.emod v2)).map (·.2)
      | ArithOp.OP_DIV =>
          let od := s.m_ops.getD idx ⟨0, ArithOp.LAST_ARITH_OP, 0, 0⟩
          let v1 := value s od.m_arg1
          let v2 := value s od.m_arg2
          (update fuel s v (if v2 = 0 then 0 else v1.tdiv v2)).map (·.2)
      | ArithOp.OP_IDIV =>
          let od := s.m_ops.getD idx ⟨0, ArithOp.LAST_ARITH_OP, 0, 0⟩
          let v1 := value s od.m_arg1
          let v2 := value s od.m_arg2
          (update fuel s v (if v2 = 0 then 0 else v1.tdiv v2)).map (·.2)
      | ArithOp.OP_REM =>
          let od := s.m_ops.getD idx ⟨0, ArithOp.LAST_ARITH_OP, 0, 0⟩
          let v1 := value s od.m_arg1
          let v2 := value s od.m_arg2
          (update fuel s v (if v2 = 0 then 0 else v1.tmod v2)).map (·.2)
      | ArithOp.OP_ABS =>
          let od := s.m_ops.getD idx ⟨0, ArithOp.LAST_ARITH_OP, 0, 0⟩
          (update fuel s v |value s od.m_arg1|).map (·.2)
      | _ => none

/-- State reached after registering `mod(x, 0)` — per `mk_op`, its op
definition stores `(m_arg1, m_arg2) = (result variable 0, x's variable 1)`
and no variable at all for the literal second operand `0` — and then
driving `value(x) := 3` and `value(result) := 5` through `set_value`.
Variable 2 is a freshly created result variable (value 0) for the
`mk_op` conjunct. -/
def opBugState : EState :=
  { m_vars := [
      ⟨0, 5, 0, VarSort.INT, ArithOp.OP_MOD, some 0, [], [], [], none, none⟩,
      ⟨1, 3, 0, VarSort.INT, ArithOp.LAST_ARITH_OP, none, [], [], [], none, none⟩,
      ⟨2, 0, 0, VarSort.INT, ArithOp.LAST_ARITH_OP, none, [], [], [], none, none⟩],
    m_bool_vars := [], m_muls := [], m_adds := [], m_ops := [⟨0, ArithOp.OP_MOD, 0, 1⟩],
    truth := [] }

/-! ### Critical move `cm` (lines 124-246) -/

/-- `arith_base::divide(v, delta, coeff)` (lines 132-138): ceiling-style
division `div(delta + abs(coeff) - 1, coeff)` for integer-sorted variables;
the `else` branch `delta / coeff` is, at `num_t = checked_int64`, C++
truncating integer division. -/
def divideZ (s : EState) (v : Nat) (delta coeff : Int) : Int :=
  if isInt s v then (delta + |coeff| - 1).tdiv coeff
  else delta.tdiv coeff

/-- The `well_formed` closure inside `cm` (lines 152-169): does moving `v`
to `nv` flip the atom's truth in the intended direction?  This is also the
claim's "intended truth transition per the table of cases". -/
def transitionOk (s : EState) (i : ZIneq) (v : Nat) (coeff nv : Int) : Bool :=
  let bound := -i.m_coeff
  let new_args := i.m_args_value + coeff * (nv - value s v)
  if i.isTrue then
    match i.m_op with
    | IneqKind.LE => decide (new_args > bound)
    | IneqKind.LT => decide (new_args ≥ bound)
    | IneqKind.EQ => decide (new_args ≠ bound)
  else
    match i.m_op with
    | IneqKind.LE => decide (new_args ≤ bound)
    | IneqKind.LT => decide (new_args < bound)
    | IneqKind.EQ => decide (new_args = bound)

/-- The `move_to_bounds` closure inside `cm` (lines 171-188), returning the
success flag together with the final (possibly clamped) value of the
by-reference `new_value`. -/
def moveToBounds (s : EState) (i : ZIneq) (v : Nat) (coeff nv0 : Int) : Bool × Int :=
  if ! inBounds s v (value s v) then (true, nv0)
  else if inBounds s v nv0 then (true, nv0)
  else
    let nv1 := match (getVar s v).m_lo with
      | some lo =>
          if lo.value > nv0 then
            if ! transitionOk s i v coeff lo.value then lo.value + 1 else lo.value
          else nv0
      | none => nv0
    let nv2 := match (getVar s v).m_hi with
      | some hi =>
          if hi.value < nv1 then
            if ! transitionOk s i v coeff hi.value then hi.value - 1 else hi.value
          else nv1
      | none => nv1
    (transitionOk s i v coeff nv2 && inBounds s v nv2, nv2)

/-- Embedding of `arith_base::cm(ineq, v, coeff, new_value)` (lines
140-246).  `rng` supplies the `ctx.rand(…)` draws in call order; the
returned `Int` is the final content of the output parameter `new_value`
(`0` when the routine bails out before assigning it). -/
def cmCore (s : EState) (i : ZIneq) (v : Nat) (coeff : Int) (rng : List Nat) :
    Bool × Int :=
  let bound := -i.m_coeff
  let argsv := i.m_args_value
  let delta := argsv - bound
  if isFixed s v then (false, 0)
  else if i.isTrue then
    match i.m_op with
    | IneqKind.LE =>
        let r3 : Int := ((rng.headD 0 % 3 : Nat) : Int)
        moveToBounds s i v coeff (value s v + divideZ s v |delta - 1 - r3| coeff)
    | IneqKind.LT =>
        let r3 : Int := ((rng.headD 0 % 3 : Nat) : Int)
        moveToBounds s i v coeff (value s v + divideZ s v (|delta| + r3) coeff)
    | IneqKind.EQ =>
        let r10 : Int := ((rng.headD 0 % 10 : Nat) : Int)
        let sgn : Int := if rng.tail.headD 0 % 2 = 0 then 1 else -1
        moveToBounds s i v coeff
          (value s v + sgn * divideZ s v (abs (|delta| + 1 + r10)) coeff)
  else
    match i.m_op with
    | IneqKind.LE =>
        let r10 : Int := ((rng.headD 0 % 10 : Nat) : Int)
        let r3 : Int := ((rng.tail.headD 0 % 3 : Nat) : Int)
        moveToBounds s i v coeff (value s v - divideZ s v (delta + r10 + r3) coeff)
    | IneqKind.LT =>
        let r10 : Int := ((rng.headD 0 % 10 : Nat) : Int)
        let r3 : Int := ((rng.tail.headD 0 % 3 : Nat) : Int)
        moveToBounds s i v coeff (value s v - divideZ s v (delta + 1 + r10 + r3) coeff)
    | IneqKind.EQ =>
        let nv := if delta < 0 then value s v + divideZ s v |delta| coeff
                  else value s v - divideZ s v delta coeff
        if argsv + coeff * (nv - value s v) = bound then moveToBounds s i v coeff nv
        else (false, nv)

/-- A state with variable 0 integer-sorted, bounded to `[0, 3]`, but with
current value 10 — a configuration `initialize` can create, since it
records unit-literal bounds without moving values. -/
def cmOobState : EState :=
  { m_vars := [⟨0, 10, 0, VarSort.INT, ArithOp.LAST_ARITH_OP, none, [], [], [],
      some ⟨false, 0⟩, some ⟨false, 3⟩⟩],
    m_bool_vars := [], m_muls := [], m_adds := [], m_ops := [], truth := [] }

/-- The currently-true atom `x - 20 ≤ 0` over that variable. -/
def cmOobIneq : ZIneq := ⟨[(1, 0)], -20, IneqKind.LE, 10, none⟩

/-- An unbounded integer variable at value 0 with the true atom `x - 5 ≤ 0`,
for the `cm` characterization witness. -/
def cmInState : EState :=
  { m_vars := [⟨0, 0, 0, VarSort.INT, ArithOp.LAST_ARITH_OP, none, [], [], [],
      none, none⟩],
    m_bool_vars := [], m_muls := [], m_adds := [], m_ops := [], truth := [] }

/-- The atom `x - 5 ≤ 0` over that variable. -/
def cmInIneq : ZIneq := ⟨[(1, 0)], -5, IneqKind.LE, 0, none⟩

/-! ### Equation-pair repair `solve_eq_pairs` (lines 248-370) -/

/-- Modelled from the spec: extended Euclid on naturals returning
`(g, s, t)` with `g = s·a + t·b` ("gcd with Bézout coefficients", spec
section 3; the numeric class is not part of the given sources).  The fuel
argument makes the recursion structural; fuel `b + 1` always suffices. -/
def xgcdFuel : Nat → Nat → Nat → Nat × Int × Int
  | 0, a, _ => (a, 1, 0)
  | _ + 1, a, 0 => (a, 1, 0)
  | f + 1, a, b + 1 =>
      let q := a / (b + 1)
      let r := a % (b + 1)
      let p := xgcdFuel f (b + 1) r
      (p.1, p.2.2, p.2.1 - p.2.2 * q)

/-- Modelled from the spec: the engine's `gcd(a, b, x0, y0)` returning
`(g, x0, y0)` with `g = a·x0 + b·y0` and `g ≥ 1` for nonzero inputs (the
source asserts both, lines 292-293). -/
def xgcdModel (a b : Int) : Int × Int × Int :=
  let p := xgcdFuel (b.natAbs + 1) a.natAbs b.natAbs
  ((p.1 : Int), p.2.1 * Int.sign a, p.2.2 * Int.sign b)

/-- The `adjust_lo` closure of `solve_eq_pairs` (lines 304-322): shift the
particular solution forward along the progression until the first component
clears its lower bound; `none` models the `return false` when the shifted
value overshoots the upper bound.  The `divide` call uses the outer
variable `x` captured by the closure. -/
def adjustLo (s : EState) (xvar : Nat) (g x0 y0 a b : Int)
    (lo hi : Option VBound) : Option (Int × Int) :=
  match lo with
  | none => some (x0, y0)
  | some lo =>
      if lo.value ≤ x0 then some (x0, y0)
      else
        let delta := lo.value - x0
        let bg := |b.tdiv g|
        let k := divideZ s xvar delta bg
        let x1 := x0 + k * bg
        if hi.any (fun hi => decide (hi.value < x1)) then none
        else some (x1, y0 + k * (if b.tdiv g > 0 then -(a.tdiv g) else a.tdiv g))

/-- The `adjust_hi` closure of `solve_eq_pairs` (lines 323-338), including
the source's `lo->value < x1` test. -/
def adjustHi (s : EState) (xvar : Nat) (g x0 y0 a b : Int)
    (lo hi : Option VBound) : Option (Int × Int) :=
  match hi with
  | none => some (x0, y0)
  | some hi =>
      if hi.value ≥ x0 then some (x0, y0)
      else
        let delta := x0 - hi.value
        let bg := |b.tdiv g|
        let k := delta.tdiv bg
        let x1 := x0 - k * bg
        if lo.any (fun lo => decide (lo.value < x1)) then none
        else some (x1, y0 - k * (if b.tdiv g > 0 then -(a.tdiv g) else a.tdiv g))

/-- The body of `solve_eq_pairs(a, x, b, y, r)` (lines 285-370) after the
extended-gcd call, parameterized by the Bézout triple `(g, x0b, y0b)` the
gcd returned.  Failure paths return `(false, s)` with the state untouched;
success `update`s both variables (their return values are ignored). -/
def solveEqPairs2With (fuel : Nat) (s : EState) (g x0b y0b : Int)
    (a : Int) (x : Nat) (b : Int) (y : Nat) (r : Int) : Option (Bool × EState) :=
  if isFixed s y then some (false, s)
  else if ! numDivides g r then some (false, s)
  else
    let x0 := x0b * r.tdiv g
    let y0 := y0b * r.tdiv g
    match adjustLo s x g x0 y0 a b (getVar s x).m_lo (getVar s x).m_hi with
    | none => some (false, s)
    | some (x1, y1) =>
        match adjustHi s x g x1 y1 a b (getVar s x).m_lo (getVar s x).m_hi with
        | none => some (false, s)
        | some (x2, y2) =>
            match adjustLo s x g y2 x2 b a (getVar s y).m_lo (getVar s y).m_hi with
            | none => some (false, s)
            | some (y3, x3) =>
                match adjustHi s x g y3 x3 b a (getVar s y).m_lo (getVar s y).m_hi with
                | none => some (false, s)
                | some (y4, x4) =>
                    if (getVar s x).m_lo.any (fun lo => decide (lo.value > x4)) then
                      some (false, s)
                    else if (getVar s x).m_hi.any (fun hi => decide (hi.value < x4)) then
                      some (false, s)
                    else if x4 = value s x then some (false, s)
                    else if |value s x| * 2 < |x4| then some (false, s)
                    else if |value s y| * 2 < |y4| then some (false, s)
                    else
                      match update fuel s x x4 with
                      | none => none
                      | some (_, s1) =>
                          match update fuel s1 y y4 with
                          | none => none
                          | some (_, s2) => some (true, s2)

/-- `solve_eq_pairs(a, x, b, y, r)` with the modelled extended gcd. -/
def solveEqPairs2 (fuel : Nat) (s : EState) (a : Int) (x : Nat) (b : Int)
    (y : Nat) (r : Int) : Option (Bool × EState) :=
  solveEqPairs2With fuel s (xgcdModel a b).1 (xgcdModel a b).2.1
    (xgcdModel a b).2.2 a x b y r

/-- The scan in `solve_eq_pairs(ineq)` that extracts `v`'s coefficient and
removes `v`'s contributions from `args_value` (lines 256-261); the
default-constructed `num_t a` is `0`. -/
def sepScanA (s : EState) (v : Nat) (args : List (Int × Nat)) (argsv0 : Int) :
    Int × Int :=
  args.foldl
    (fun acc p => if p.2 = v then (p.1, acc.2 - value s v * p.1) else acc)
    (0, argsv0)

/-- The partner-search loop of `solve_eq_pairs(ineq)` (lines 265-277):
iteration `i = length - cnt` visits index `(start + i) % length`, skipping
`v` itself and unit coefficients, and calls the pair solver with
`r = bound - (argsv - value(w)·b)`. -/
def sepLoop (fuel : Nat) (s : EState) (args : List (Int × Nat)) (v : Nat)
    (a argsv bound : Int) (start : Nat) : Nat → Option (Bool × EState)
  | 0 => some (false, s)
  | cnt + 1 =>
      let j := (start + (args.length - (cnt + 1))) % args.length
      let p := args.getD j (0, 0)
      if p.2 = v ∨ p.1 = 1 ∨ p.1 = -1 then
        sepLoop fuel s args v a argsv bound start cnt
      else
        match solveEqPairs2 fuel s a v p.1 p.2
            (bound - (argsv - value s p.2 * p.1)) with
        | none => none
        | some (true, s') => some (true, s')
        | some (false, s') => sepLoop fuel s' args v a argsv bound start cnt

/-- Embedding of `solve_eq_pairs(ineq)` (lines 248-279); `start` models the
raw `ctx.rand()` draw.  A missing `m_var_to_flip` (`UINT_MAX`) would index
past `m_vars` in the source, so it is modelled as `none`. -/
def solveEqPairsIneq (fuel : Nat) (s : EState) (i : ZIneq) (start : Nat) :
    Option (Bool × EState) :=
  match i.m_var_to_flip with
  | none => none
  | some v =>
      if isFixed s v then some (false, s)
      else
        let bound := -i.m_coeff
        let a := (sepScanA s v i.m_args i.m_args_value).1
        let argsv := (sepScanA s v i.m_args i.m_args_value).2
        if |a| = 1 then some (false, s)
        else sepLoop fuel s i.m_args v a argsv bound start i.m_args.length

/-- The scenario of the claim: integer variables `x` (index 0) and `y`
(index 1), both unbounded, both currently `0`. -/
def eqPairState : EState :=
  { m_vars := [
      ⟨0, 0, 0, VarSort.INT, ArithOp.LAST_ARITH_OP, none, [], [], [], none, none⟩,
      ⟨1, 0, 0, VarSort.INT, ArithOp.LAST_ARITH_OP, none, [], [], [], none, none⟩],
    m_bool_vars := [], m_muls := [], m_adds := [], m_ops := [], truth := [] }

/-- The equality atom `2x + 3y - 7 = 0` with pivot `x`. -/
def eqPairIneq : ZIneq := ⟨[(2, 0), (3, 1)], -7, IneqKind.EQ, 0, some 0⟩

/-! ### Bound initialization from unit literals
(`init_bool_var`, `init_ineq`, `initialize(literal)`, `add_le`/`add_ge`/
`add_lt`/`add_gt`, lines 827-1117)

The expression fragment modelled is the one the `≤`/`≥` branches of
`init_bool_var` walk for unit bound literals: variables, numerals, and the
two comparisons.  `m_expr2var` is carried next to the engine state. -/

/-- The arithmetic AST fragment: each node carries its expression id
(`e->get_id()`). -/
inductive AExpr where
  | avar (id : Nat)
  | anum (id : Nat) (val : Int)
  | ale (id : Nat) (x y : AExpr)
  | age (id : Nat) (x y : AExpr)
deriving DecidableEq, Repr

def AExpr.eid : AExpr → Nat
  | AExpr.avar i => i
  | AExpr.anum i _ => i
  | AExpr.ale i _ _ => i
  | AExpr.age i _ _ => i

/-- `a.is_extended_numeral(e, r)` on the fragment. -/
def isNum : AExpr → Option Int
  | AExpr.anum _ n => some n
  | _ => none

/-- Engine state together with `m_expr2var`. -/
structure RState where
  es : EState
  expr2var : List (Nat × Nat)
deriving DecidableEq, Repr

/-- `m_expr2var.get(e->get_id(), UINT_MAX)`. -/
def lookupE2V (m : List (Nat × Nat)) (eid : Nat) : Option Nat :=
  (m.find? (fun p => p.1 == eid)).map (·.2)

/-- `arith_base::mk_var(e)` (lines 815-825): reuse the mapped variable or
append a fresh record (value 0; the fragment is integer-sorted). -/
def mkVar (r : RState) (e : AExpr) : RState × Nat :=
  match lookupE2V r.expr2var e.eid with
  | some v => (r, v)
  | none =>
      let v := r.es.m_vars.length
      ({ es := { r.es with m_vars := r.es.m_vars ++
          [⟨e.eid, 0, 0, VarSort.INT, ArithOp.LAST_ARITH_OP, none, [], [], [],
            none, none⟩] },
         expr2var := r.expr2var ++ [(e.eid, v)] }, v)

/-- `arith_base::add_arg(term, c, v)` (lines 638-642). -/
def addArg (t : List (Int × Nat) × Int) (c : Int) (v : Nat) :
    List (Int × Nat) × Int :=
  if c ≠ 0 then (t.1 ++ [(c, v)], t.2) else t

/-- `arith_base::add_args(term, e, coeff)` (lines 683-753) on the
variable/numeral fragment: an already-mapped expression contributes its
variable, a numeral folds into the constant, and any other leaf becomes a
fresh variable. -/
def addArgs (r : RState) (t : List (Int × Nat) × Int) (e : AExpr)
    (coeff : Int) : RState × (List (Int × Nat) × Int) :=
  match lookupE2V r.expr2var e.eid with
  | some v => (r, addArg t coeff v)
  | none =>
      match isNum e with
      | some i => (r, (t.1, t.2 + coeff * i))
      | none =>
          let p := mkVar r e
          (p.1, addArg t coeff p.2)

/-- Growable `m_bool_vars.set(bv, &i)` preceded by `reserve(bv + 1)`. -/
def setAtomGrow (l : List (Option ZIneq)) (bv : Nat) (a : ZIneq) :
    List (Option ZIneq) :=
  (l ++ List.replicate (bv + 1 - l.length) none).set bv (some a)

/-- `arith_base::init_ineq(bv, i)` (lines 877-885): register `(coeff, bv)`
on every argument variable, accumulate the cached `m_args_value`, and store
the atom. -/
def initIneq (r : RState) (bv : Nat) (args : List (Int × Nat)) (coeff : Int)
    (op : IneqKind) : RState :=
  let acc := args.foldl
    (fun (acc : EState × Int) p =>
      let vi := { getVar acc.1 p.2 with
                  m_bool_vars := (getVar acc.1 p.2).m_bool_vars ++ [(p.1, bv)] }
      ({ acc.1 with m_vars := acc.1.m_vars.set p.2 vi },
       acc.2 + p.1 * value acc.1 p.2))
    (r.es, 0)
  { r with es := { acc.1 with
      m_bool_vars := setAtomGrow acc.1.m_bool_vars bv
        ⟨args, coeff, op, acc.2, none⟩ } }

/-- The `≤`/`≥` branch of `arith_base::init_bool_var(bv)` (lines 827-847):
`new_ineq(LE, 0)`, `add_args(x, 1)`, `add_args(y, -1)`, `init_ineq`, with
`(x, y)` the operands ordered so the atom reads `x - y ≤ 0`. -/
def initBoolVar (ctxAtoms : List (Option AExpr)) (r : RState) (bv : Nat) :
    RState :=
  match r.es.m_bool_vars.getD bv none with
  | some _ => r
  | none =>
      match ctxAtoms.getD bv none with
      | none => r
      | some e =>
          match e with
          | AExpr.ale _ x y =>
              let p1 := addArgs r ([], 0) x 1
              let p2 := addArgs p1.1 p1.2 y (-1)
              initIneq p2.1 bv p2.2.1 p2.2.2 IneqKind.LE
          | AExpr.age _ y x =>
              let p1 := addArgs r ([], 0) x 1
              let p2 := addArgs p1.1 p1.2 y (-1)
              initIneq p2.1 bv p2.2.1 p2.2.2 IneqKind.LE
          | _ => r

/-- `arith_base::add_le(v, n)` (lines 1089-1094). -/
def addLe (es : EState) (v : Nat) (n : Int) : EState :=
  if (getVar es v).m_hi.any (fun hi => decide (hi.value ≤ n)) then es
  else
    let vi := { getVar es v with m_hi := some ⟨false, n⟩ }
    { es with m_vars := es.m_vars.set v vi }

/-- `arith_base::add_ge(v, n)` (lines 1096-1101). -/
def addGe (es : EState) (v : Nat) (n : Int) : EState :=
  if (getVar es v).m_lo.any (fun lo => decide (lo.value ≥ n)) then es
  else
    let vi := { getVar es v with m_lo := some ⟨false, n⟩ }
    { es with m_vars := es.m_vars.set v vi }

/-- `arith_base::add_lt(v, n)` (lines 1103-1109): an integer strict upper
bound is tightened to `≤ n - 1`. -/
def addLt (es : EState) (v : Nat) (n : Int) : EState :=
  if isInt es v then addLe es v (n - 1)
  else
    let vi := { getVar es v with m_hi := some ⟨true, n⟩ }
    { es with m_vars := es.m_vars.set v vi }

/-- `arith_base::add_gt(v, n)` (lines 1111-1117). -/
def addGt (es : EState) (v : Nat) (n : Int) : EState :=
  if isInt es v then addGe es v (n + 1)
  else
    let vi := { getVar es v with m_lo := some ⟨true, n⟩ }
    { es with m_vars := es.m_vars.set v vi }

/-- `arith_base::initialize(literal)` (lines 1020-1087): create the
Boolean variable's atom, then, for a unit atom `c·v + k ⋈ 0` with `c = ±1`,
record the implied bound on `v`. -/
def initializeLit (ctxAtoms : List (Option AExpr)) (r : RState)
    (lit : Nat × Bool) : RState :=
  let r := initBoolVar ctxAtoms r lit.1
  match r.es.m_bool_vars.getD lit.1 none with
  | none => r
  | some i =>
      if i.m_args.length ≠ 1 then r
      else
        let c := (i.m_args.getD 0 (0, 0)).1
        let v := (i.m_args.getD 0 (0, 0)).2
        match i.m_op with
        | IneqKind.LE =>
            if lit.2 then
              if c = -1 then { r with es := addLe r.es v i.m_coeff }
              else if c = 1 then { r with es := addGe r.es v (-i.m_coeff) }
              else r
            else
              if c = -1 then { r with es := addGe r.es v i.m_coeff }
              else if c = 1 then { r with es := addLe r.es v (-i.m_coeff) }
              else r
        | IneqKind.EQ =>
            if lit.2 then r
            else
              if c = -1 then
                { r with es := addLe (addGe r.es v i.m_coeff) v i.m_coeff }
              else if c = 1 then
                { r with es := addLe (addGe r.es v (-i.m_coeff)) v (-i.m_coeff) }
              else r
        | IneqKind.LT =>
            if lit.2 then
              if c = -1 then { r with es := addLe r.es v i.m_coeff }
              else if c = 1 then { r with es := addGe r.es v (-i.m_coeff) }
              else r
            else
              if c = -1 then { r with es := addGt r.es v i.m_coeff }
              else if c = 1 then { r with es := addLt r.es v (-i.m_coeff) }
              else r

/-- The public entry point `arith_base::initialize()` (lines 1014-1018):
process every unit literal. -/
def initializeMain (ctxAtoms : List (Option AExpr))
    (units : List (Nat × Bool)) (r : RState) : RState :=
  units.foldl (initializeLit ctxAtoms) r

/-- The claim's invariant, as stated: every variable with both bounds
satisfies `lo.value ≤ value ≤ hi.value`, strictly at a strict bound. -/
def boundsInvariantHolds (es : EState) : Bool :=
  es.m_vars.all (fun vi =>
    match vi.m_lo, vi.m_hi with
    | some lo, some hi =>
        (if lo.is_strict then decide (lo.value < vi.m_value)
         else decide (lo.value ≤ vi.m_value)) &&
        (if hi.is_strict then decide (vi.m_value < hi.value)
         else decide (vi.m_value ≤ hi.value))
    | _, _ => true)

/-- The unit atoms `x ≤ -1` (Boolean variable 0) and `x ≥ -5` (Boolean
variable 1) over the single arithmetic variable `x` (expression id 10). -/
def bndCtxAtoms : List (Option AExpr) :=
  [some (AExpr.ale 0 (AExpr.avar 10) (AExpr.anum 11 (-1))),
   some (AExpr.age 1 (AExpr.avar 10) (AExpr.anum 12 (-5)))]

/-! ### `update` preserves bounds on the values it changes -/

/-- `s'` carries the same per-variable bounds as `s`. -/
def bndEq (s s' : EState) : Prop :=
  ∀ w, (getVar s' w).m_lo = (getVar s w).m_lo ∧
       (getVar s' w).m_hi = (getVar s w).m_hi

/-- Values after a state transition are either the old values or lie in
bounds; the relation composes along transitions that keep bounds fixed. -/
def valsOkFrom (s0 s : EState) : Prop :=
  ∀ w, value s w = value s0 w ∨ inBounds s w (value s w) = true

/-- A one-variable state (value 0, no bounds) for the bound-preservation
witness. -/
def updBndState : EState :=
  { m_vars := [⟨0, 0, 0, VarSort.INT, ArithOp.LAST_ARITH_OP, none, [], [], [],
      none, none⟩],
    m_bool_vars := [], m_muls := [], m_adds := [], m_ops := [], truth := [] }

/-- The state after `update(0, 5)` on `updBndState`. -/
def updBndStateAfter : EState :=
  { m_vars := [⟨0, 5, 0, VarSort.INT, ArithOp.LAST_ARITH_OP, none, [], [], [],
      none, none⟩],
    m_bool_vars := [], m_muls := [], m_adds := [], m_ops := [], truth := [] }

/-! ## Theorems -/

/-- One Newton step strictly decreases `x0` while `x0` is above the integer
square root. -/
lemma sqrt_newton_step_lt {n x0 s : Int} (hn : 0 ≤ n) (hs : 0 ≤ s)
    (hsq : n < (s + 1) * (s + 1)) (hx : s < x0) :
    (x0 + n.tdiv x0).tdiv 2 < x0 := by
  have hx0 : 0 < x0 := lt_of_le_of_lt hs hx
  have htd : n.tdiv x0 = n / x0 := Int.tdiv_eq_ediv hn (le_of_lt hx0)
  have hq0 : 0 ≤ n / x0 := Int.ediv_nonneg hn (le_of_lt hx0)
  have hnx : n < x0 * x0 := by nlinarith
  have hqx : n / x0 < x0 := (Int.ediv_lt_iff_lt_mul hx0).mpr hnx
  have h1 : x0 + n.tdiv x0 ≤ 2 * x0 - 1 := by omega
  have h2 : (x0 + n.tdiv x0).tdiv 2 = (x0 + n.tdiv x0) / 2 := by
    refine Int.tdiv_eq_ediv ?_ (by norm_num)
    omega
  have h3 : (x0 + n.tdiv x0) / 2 ≤ (2 * x0 - 1) / 2 :=
    Int.ediv_le_ediv (by norm_num) h1
  have h4 : (2 * x0 - 1) / 2 = x0 - 1 := by
    have : (2 * x0 - 1 : Int) = 1 + 2 * (x0 - 1) := by ring
    rw [this, Int.add_mul_ediv_left _ _ (by norm_num : (2:Int) ≠ 0)]
    norm_num
  omega

/-- One Newton step stays at or above the integer square root
(the integer arithmetic-geometric mean inequality). -/
lemma sqrt_newton_step_ge {n x0 s : Int} (hn : 0 ≤ n) (hs : 0 ≤ s)
    (hs2 : s * s ≤ n) (hx : 1 ≤ x0) :
    s ≤ (x0 + n.tdiv x0).tdiv 2 := by
  have hx0 : 0 < x0 := hx
  have htd : n.tdiv x0 = n / x0 := Int.tdiv_eq_ediv hn (le_of_lt hx0)
  have hq0 : 0 ≤ n / x0 := Int.ediv_nonneg hn (le_of_lt hx0)
  have hkey : 2 * s ≤ x0 + n / x0 := by
    by_contra hcon
    push_neg at hcon
    have hsum : x0 + (n / x0 + 1) ≤ 2 * s := by omega
    have hnlt : n < (n / x0 + 1) * x0 := Int.lt_ediv_add_one_mul_self n hx0
    have hamgm : (n / x0 + 1) * x0 ≤ s * s := by
      nlinarith [sq_nonneg (x0 - (n / x0 + 1)), sq_nonneg (x0 + (n / x0 + 1))]
    omega
  have h2 : (x0 + n.tdiv x0).tdiv 2 = (x0 + n.tdiv x0) / 2 := by
    refine Int.tdiv_eq_ediv ?_ (by norm_num)
    omega
  have h3 : (2 * s) / 2 ≤ (x0 + n / x0) / 2 :=
    Int.ediv_le_ediv (by norm_num) hkey
  have h4 : (2 * s) / 2 = s := by
    have : (2 * s : Int) = s * 2 := by ring
    rw [this, Int.mul_ediv_cancel _ (by norm_num : (2:Int) ≠ 0)]
  omega

/-- The Newton loop, started at or above the integer square root `s` of `n`,
terminates with exactly `s` given fuel exceeding `x0 - s`. -/
lemma sqrtLoopF_eq_sqrt {n : Int} (s : Int) (hn : 0 ≤ n) (hs : 1 ≤ s)
    (hs2 : s * s ≤ n) (hsq : n < (s + 1) * (s + 1)) :
    ∀ (f : Nat) (x0 : Int), s ≤ x0 → (x0 - s).toNat < f →
      sqrtLoopF f n x0 = some s := by
  intro f
  induction f with
  | zero => intro x0 _ hf; omega
  | succ f ih =>
      intro x0 hx0 hf
      have hx1 : 1 ≤ x0 := le_trans hs hx0
      have hge : s ≤ (x0 + n.tdiv x0).tdiv 2 :=
        sqrt_newton_step_ge hn (by omega) hs2 hx1
      by_cases hlt : (x0 + n.tdiv x0).tdiv 2 < x0
      · have : sqrtLoopF (f + 1) n x0 = sqrtLoopF f n ((x0 + n.tdiv x0).tdiv 2) := by
          simp only [sqrtLoopF, hlt, if_pos]
        rw [this]
        exact ih _ hge (by omega)
      · have hret : sqrtLoopF (f + 1) n x0 = some x0 := by
          simp only [sqrtLoopF, hlt, if_neg, not_false_iff]
        rw [hret]
        have : ¬ s < x0 := by
          intro hslt
          exact hlt (sqrt_newton_step_lt hn (by omega) hsq hslt)
        have : x0 = s := by omega
        rw [this]

/-- C8: for every integer `n ≥ 0`, `sqrt(n)` returns a value `r` with
`r² ≤ n < (r+1)²` (spec section 8: round-trip / idempotence). -/
theorem sls_sqrt_correct (n : Int) (hn : 0 ≤ n) :
    ∃ r, slsSqrt n = some r ∧ r * r ≤ n ∧ n < (r + 1) * (r + 1) := by
  by_cases hle : n ≤ 1
  · refine ⟨n, by simp [slsSqrt, hle], ?_, ?_⟩
    · have : n = 0 ∨ n = 1 := by omega
      rcases this with rfl | rfl <;> norm_num
    · have : n = 0 ∨ n = 1 := by omega
      rcases this with rfl | rfl <;> norm_num
  · push_neg at hle
    have h2 : 2 ≤ n := hle
    set s : Int := ((Nat.sqrt n.toNat : Nat) : Int) with hsdef
    have hnt : ((n.toNat : Nat) : Int) = n := Int.toNat_of_nonneg hn
    have hs2 : s * s ≤ n := by
      have := Nat.sqrt_le n.toNat
      calc s * s = ((Nat.sqrt n.toNat * Nat.sqrt n.toNat : Nat) : Int) := by push_cast; ring
        _ ≤ ((n.toNat : Nat) : Int) := by exact_mod_cast this
        _ = n := hnt
    have hsq : n < (s + 1) * (s + 1) := by
      have := Nat.lt_succ_sqrt n.toNat
      calc n = ((n.toNat : Nat) : Int) := hnt.symm
        _ < ((Nat.succ (Nat.sqrt n.toNat) * Nat.succ (Nat.sqrt n.toNat) : Nat) : Int) := by
              exact_mod_cast this
        _ = (s + 1) * (s + 1) := by push_cast; ring
    have hs1 : 1 ≤ s := by
      have h1 : 1 ≤ Nat.sqrt n.toNat := by
        rw [Nat.le_sqrt]
        omega
      rw [hsdef]
      exact_mod_cast h1
    have h2s : 2 * s ≤ n := by
      rcases le_or_lt s 1 with hc | hc
      · omega
      · nlinarith
    have hdiv : n.tdiv 2 = n / 2 := Int.tdiv_eq_ediv hn (by norm_num)
    have hsx0 : s ≤ n.tdiv 2 := by
      rw [hdiv]
      rw [Int.le_ediv_iff_mul_le (by norm_num : (0:Int) < 2)]
      omega
    have hx0n : n.tdiv 2 ≤ n := by
      rw [hdiv]
      exact Int.ediv_le_self _ hn
    have hfuel : (n.tdiv 2 - s).toNat < n.toNat + 1 := by omega
    refine ⟨s, ?_, hs2, hsq⟩
    have : slsSqrt n = sqrtLoopF (n.toNat + 1) n (n.tdiv 2) := by
      simp [slsSqrt, not_le.mpr hle]
    rw [this]
    exact sqrtLoopF_eq_sqrt s hn hs1 hs2 hsq _ _ hsx0 hfuel

/-- Witness for the square-root theorem at the concrete input `n = 8`. -/
theorem sls_sqrt_correct_witness :
    0 ≤ (8 : Int) ∧ ∃ r, slsSqrt 8 = some r ∧ r * r ≤ 8 ∧ (8:Int) < (r + 1) * (r + 1) :=
  ⟨by norm_num, sls_sqrt_correct 8 (by norm_num)⟩

/-- A trial-division loop multiplies back: the extracted factors times the
remaining quotient reproduce the input. -/
lemma extractF_prod (d : Int) :
    ∀ (f : Nat) (n : Int) (l : List Int) (n' : Int),
      extractF d f n = some (l, n') → l.prod * n' = n := by
  intro f
  induction f with
  | zero => intro n l n' h; simp [extractF] at h
  | succ f ih =>
      intro n l n' h
      by_cases hd : n.emod d = 0
      · have hdvd : d ∣ n := Int.dvd_of_emod_eq_zero hd
        simp only [extractF, hd, if_pos] at h
        cases hrec : extractF d f (n.tdiv d) with
        | none => rw [hrec] at h; exact absurd h (by simp)
        | some p =>
            obtain ⟨l0, n0⟩ := p
            rw [hrec] at h
            simp only [Option.some.injEq, Prod.mk.injEq] at h
            obtain ⟨hl, hn⟩ := h
            have hih := ih (n.tdiv d) l0 n0 hrec
            have htd : n.tdiv d = n / d := Int.tdiv_eq_ediv_of_dvd hdvd
            have hmul : d * (n / d) = n := Int.mul_ediv_cancel' hdvd
            subst hl hn
            simp only [List.prod_cons]
            rw [mul_assoc, hih, htd, hmul]
      · simp only [extractF, hd, if_neg, not_false_iff] at h
        simp only [Option.some.injEq, Prod.mk.injEq] at h
        obtain ⟨hl, hn⟩ := h
        subst hl hn
        simp

/-- A trial-division loop terminates on every nonzero input with fuel
`|n|`, yielding a nonzero quotient of no larger absolute value,
positive when the input is positive. -/
lemma extractF_total (d : Int) (hd : 2 ≤ d) :
    ∀ (f : Nat) (n : Int), n ≠ 0 → n.natAbs ≤ f →
      ∃ l n', extractF d f n = some (l, n') ∧ n' ≠ 0 ∧
        n'.natAbs ≤ n.natAbs ∧ (0 < n → 0 < n') := by
  intro f
  induction f with
  | zero => intro n hn hf; omega
  | succ f ih =>
      intro n hn hf
      by_cases hdd : n.emod d = 0
      · have hdvd : d ∣ n := Int.dvd_of_emod_eq_zero hdd
        have htd : n.tdiv d = n / d := Int.tdiv_eq_ediv_of_dvd hdvd
        have hmul : d * (n / d) = n := Int.mul_ediv_cancel' hdvd
        have hq0 : n / d ≠ 0 := by
          intro h0
          rw [h0, mul_zero] at hmul
          exact hn hmul.symm
        have habs : (n / d).natAbs < n.natAbs := by
          have h1 : n.natAbs = d.natAbs * (n / d).natAbs := by
            rw [← Int.natAbs_mul, hmul]
          have hd2 : 2 ≤ d.natAbs := by omega
          have hq1 : 1 ≤ (n / d).natAbs := by omega
          calc (n / d).natAbs < 2 * (n / d).natAbs := by omega
            _ ≤ d.natAbs * (n / d).natAbs := by
                  exact Nat.mul_le_mul_right _ hd2
            _ = n.natAbs := h1.symm
        have hposq : 0 < n → 0 < n / d := by
          intro hpos
          rcases lt_trichotomy (n / d) 0 with hlt | heq | hgt
          · nlinarith
          · exact absurd heq hq0
          · exact hgt
        obtain ⟨l0, n0, hrec, hn0, habs0, hpos0⟩ :=
          ih (n.tdiv d) (by rw [htd]; exact hq0) (by rw [htd]; omega)
        refine ⟨d :: l0, n0, ?_, hn0, by rw [htd] at habs0; omega, ?_⟩
        · simp only [extractF, hdd, if_pos, hrec]
        · intro hpos
          exact hpos0 (by rw [htd]; exact hposq hpos)
      · exact ⟨[], n, by simp [extractF, hdd], hn, le_refl _, fun h => h⟩

/-- Every entry of the wheel-increment table is non-negative. -/
lemma wheelIncrements_getD_nonneg (i : Nat) : 0 ≤ wheelIncrements.getD i 0 := by
  rcases i with _ | _ | _ | _ | _ | _ | _ | _ | i <;>
    simp [wheelIncrements, List.getD]

/-- The wheel loop multiplies back. -/
lemma wheelF_prod (f : Nat) :
    ∀ (rem i j : Nat) (d n : Int) (l : List Int) (n' : Int),
      wheelF f rem i j d n = some (l, n') → l.prod * n' = n := by
  intro rem
  induction rem with
  | zero =>
      intro i j d n l n' h
      simp only [wheelF, Option.some.injEq, Prod.mk.injEq] at h
      obtain ⟨hl, hn⟩ := h
      subst hl hn
      simp
  | succ rem ih =>
      intro i j d n l n' h
      by_cases hg : d * d ≤ n ∧ j < 3
      · simp only [wheelF] at h
        rw [if_pos hg] at h
        cases hex : extractF d f n with
        | none => simp only [hex] at h; exact absurd h (by simp)
        | some p =>
            obtain ⟨l0, n0⟩ := p
            simp only [hex] at h
            cases hw : wheelF f rem ((if i = 8 then 0 else i) + 1) (j + 1)
                (d + wheelIncrements.getD (if i = 8 then 0 else i) 0) n0 with
            | none => simp only [hw] at h; exact absurd h (by simp)
            | some q =>
                obtain ⟨l1, n1⟩ := q
                simp only [hw, Option.some.injEq, Prod.mk.injEq] at h
                obtain ⟨hl, hn⟩ := h
                have h0 := extractF_prod d f n l0 n0 hex
                have h1 := ih _ _ _ n0 l1 n1 hw
                rw [← hl, ← hn, List.prod_append, mul_assoc, h1, h0]
      · simp only [wheelF] at h
        rw [if_neg hg] at h
        simp only [Option.some.injEq, Prod.mk.injEq] at h
        obtain ⟨hl, hn⟩ := h
        subst hl hn
        simp

/-- The wheel loop terminates on nonzero inputs with fuel at least `|n|`. -/
lemma wheelF_total (f : Nat) :
    ∀ (rem i j : Nat) (d n : Int), 2 ≤ d → n ≠ 0 → n.natAbs ≤ f →
      ∃ l n', wheelF f rem i j d n = some (l, n') ∧ n' ≠ 0 ∧
        n'.natAbs ≤ n.natAbs ∧ (0 < n → 0 < n') := by
  intro rem
  induction rem with
  | zero =>
      intro i j d n _ hn _
      exact ⟨[], n, by simp [wheelF], hn, le_refl _, fun h => h⟩
  | succ rem ih =>
      intro i j d n hd hn hf
      by_cases hg : d * d ≤ n ∧ j < 3
      · obtain ⟨l0, n0, hex, hn0, habs0, hpos0⟩ := extractF_total d hd f n hn hf
        have hd' : 2 ≤ d + wheelIncrements.getD (if i = 8 then 0 else i) 0 := by
          have := wheelIncrements_getD_nonneg (if i = 8 then 0 else i)
          omega
        obtain ⟨l1, n1, hw, hn1, habs1, hpos1⟩ :=
          ih ((if i = 8 then 0 else i) + 1) (j + 1)
            (d + wheelIncrements.getD (if i = 8 then 0 else i) 0) n0 hd' hn0
            (le_trans habs0 hf)
        refine ⟨l0 ++ l1, n1, ?_, hn1, le_trans habs1 habs0, fun h => hpos1 (hpos0 h)⟩
        simp only [wheelF]
        rw [if_pos hg]
        simp only [hex, hw]
      · refine ⟨[], n, ?_, hn, le_refl _, fun h => h⟩
        simp only [wheelF]
        rw [if_neg hg]

/-- C7 (amended): for every integer `n ≥ 1`, `factor(n)` terminates and the
product of the returned factors is `n` (equivalently `|n|`).  For negative
`n` the routine can return an empty factor list (see the counterexample),
and at `n = 0` it diverges. -/
theorem factor_prod_of_pos (n : Int) (hn : 1 ≤ n) :
    ∃ l, factorRun n = some l ∧ l.prod = n := by
  have hne : n ≠ 0 := by omega
  have hf : n.natAbs ≤ n.natAbs + 1 := by omega
  obtain ⟨l2, n2, h2, hn2, ha2, hp2⟩ :=
    extractF_total 2 (by norm_num) (n.natAbs + 1) n hne hf
  obtain ⟨l3, n3, h3, hn3, ha3, hp3⟩ :=
    extractF_total 3 (by norm_num) (n.natAbs + 1) n2 hn2 (le_trans ha2 hf)
  obtain ⟨l5, n5, h5, hn5, ha5, hp5⟩ :=
    extractF_total 5 (by norm_num) (n.natAbs + 1) n3 hn3 (le_trans ha3 (le_trans ha2 hf))
  obtain ⟨lw, nw, hw, hnw, haw, hpw⟩ :=
    wheelF_total (n.natAbs + 1) 3 0 0 7 n5 (by norm_num) hn5
      (le_trans ha5 (le_trans ha3 (le_trans ha2 hf)))
  have hq2 := extractF_prod 2 (n.natAbs + 1) n l2 n2 h2
  have hq3 := extractF_prod 3 (n.natAbs + 1) n2 l3 n3 h3
  have hq5 := extractF_prod 5 (n.natAbs + 1) n3 l5 n5 h5
  have hqw := wheelF_prod (n.natAbs + 1) 3 0 0 7 n5 lw nw hw
  have hnwpos : 0 < nw := hpw (hp5 (hp3 (hp2 hn)))
  refine ⟨l2 ++ l3 ++ l5 ++ lw ++ (if nw > 1 then [nw] else []), ?_, ?_⟩
  · simp only [factorRun, factorF, h2, h3, h5, hw]
  · by_cases h1 : nw > 1
    · simp only [h1, if_pos, List.prod_append, List.prod_cons, List.prod_nil]
      rw [← hq2, ← hq3, ← hq5, ← hqw]
      ring
    · have : nw = 1 := by omega
      subst this
      simp only [h1] at *
      simp only [if_neg, List.prod_append, List.prod_nil, not_false_iff]
      rw [← hq2, ← hq3, ← hq5, ← hqw]
      ring

/-- Witness for the amended factor theorem at the concrete input `n = 12`. -/
theorem factor_prod_of_pos_witness :
    1 ≤ (12 : Int) ∧ ∃ l, factorRun 12 = some l ∧ l.prod = 12 :=
  ⟨by norm_num, factor_prod_of_pos 12 (by norm_num)⟩

/-- C7 counterexample: `factor(-7)` terminates with the empty factor list,
whose product `1` is not `|-7| = 7`: the claim fails for negative inputs
because the non-negative modulo never reports a negative number as
divisible by 2, 3 or 5 past its last division step, the wheel guard
`d * d ≤ n` is instantly false, and the remainder test `n > 1` rejects the
negative remainder instead of pushing it. -/
theorem factor_neg_counterexample :
    factorRun (-7) = some [] ∧ (([] : List Int).prod = 1) ∧
      ((1 : Int) ≠ |(-7 : Int)|) := by
  refine ⟨by decide, by decide, by decide⟩

/-- The first trial-division loop never terminates at input `0`:
`mod(0, 2) = 0` holds forever and `div(0, 2) = 0` makes no progress. -/
lemma extractF_zero : ∀ f : Nat, extractF 2 f (0 : Int) = none := by
  intro f
  induction f with
  | zero => rfl
  | succ f ih =>
      have h1 : (0:Int).emod 2 = 0 := by decide
      have h2 : (0:Int).tdiv 2 = 0 := by decide
      simp [extractF, h1, h2, ih]

/-- C10: `factor(n)` terminates for every `n ≠ 0`; the precondition is
necessary since at `n = 0` the first trial-division loop runs forever
(`none` for every fuel); and `repair_mul` reaches `factor` with argument `0`,
e.g. from a monomial with `value(v) = 1` and `coeff = 2`, where
`abs(div(1, 2)) = 0`. -/
theorem factor_terminates_iff_nonzero :
    (∀ n : Int, n ≠ 0 → (factorRun n).isSome = true) ∧
    (∀ f : Nat, factorF f 0 = none) ∧
    repairMulFactorArg 1 2 1 = 0 := by
  refine ⟨?_, ?_, by decide⟩
  · intro n hn
    have hf : n.natAbs ≤ n.natAbs + 1 := by omega
    obtain ⟨l2, n2, h2, hn2, ha2, -⟩ :=
      extractF_total 2 (by norm_num) (n.natAbs + 1) n hn hf
    obtain ⟨l3, n3, h3, hn3, ha3, -⟩ :=
      extractF_total 3 (by norm_num) (n.natAbs + 1) n2 hn2 (le_trans ha2 hf)
    obtain ⟨l5, n5, h5, hn5, ha5, -⟩ :=
      extractF_total 5 (by norm_num) (n.natAbs + 1) n3 hn3
        (le_trans ha3 (le_trans ha2 hf))
    obtain ⟨lw, nw, hw, -, -, -⟩ :=
      wheelF_total (n.natAbs + 1) 3 0 0 7 n5 (by norm_num) hn5
        (le_trans ha5 (le_trans ha3 (le_trans ha2 hf)))
    simp only [factorRun, factorF, h2, h3, h5, hw, Option.isSome_some]
  · intro f
    simp [factorF, extractF_zero]

/-- Witness for the factor-termination theorem at the concrete input `n = -7`. -/
theorem factor_terminates_iff_nonzero_witness :
    ((-7 : Int) ≠ 0) ∧ (factorRun (-7)).isSome = true :=
  ⟨by decide, factor_terminates_iff_nonzero.1 (-7) (by decide)⟩

/-! ### The distance-to-truth table (claim about `dtt`) -/

/-- C6 counterexample: over the `rational` instantiation, at the atom
`args_value + 0 < 0` with cached `args_value = -1/2`, the code's
`dtt(false, ·)` returns `0` while the specification's table prescribes
`max(0, args_value + k + 1) = 1/2`. -/
theorem dtt_table_counterexample :
    dttQ false (-(1:Rat)/2) ⟨IneqKind.LT, 0, -(1:Rat)/2⟩ ≠
      dttSpecTable false (-(1:Rat)/2) ⟨IneqKind.LT, 0, -(1:Rat)/2⟩ := by
  norm_num [dttQ, dttSpecTable]

/-- C6 (amended): `dtt` agrees with the specification's table in every entry
except `<` with target sign `false`, where the correct value is `0` when
`args_value + k < 0` and `args_value + k + 1` otherwise; over integer-valued
`args_value + k` (in particular in the `checked_int64` instantiation) the two
tables coincide. -/
theorem dtt_matches_amended_table (sign : Bool) (args : Rat) (i : QIneq) :
    dttQ sign args i = dttAmendedTable sign args i := by
  obtain ⟨op, k, av⟩ := i
  have hmax : ∀ x : Rat, max 0 x = if x ≤ 0 then 0 else x := by
    intro x
    rcases le_or_lt x 0 with h | h
    · rw [max_eq_left h, if_pos h]
    · rw [max_eq_right (le_of_lt h), if_neg (not_le.mpr h)]
  cases op <;> cases sign <;>
    simp only [dttQ, dttAmendedTable, hmax] <;>
    split_ifs <;>
    first
      | rfl
      | linarith
      | simp_all

/-- C9: a failed `update` is atomic — whenever `update(v, n)` returns
`false`, the engine state (variable values, atom caches, and the
controller's literal-truth table) is exactly as before the call.  Every
`return false` in the source precedes the first mutation, and the
bound-clamping recursions re-enter `update` on the unmodified state. -/
theorem update_failure_atomic (fuel : Nat) :
    ∀ (s : EState) (v : Nat) (n : Int) (s' : EState),
      update fuel s v n = some (false, s') → s' = s := by
  induction fuel with
  | zero => intro s v n s' h; simp [update] at h
  | succ fuel ih =>
      intro s v n s' h
      simp only [update] at h
      split at h
      · simp at h
      · split at h
        · split at h
          · exact absurd h (by simp)
          · split at h
            · exact absurd h (by simp)
            · simp at h
        · split at h
          · split at h
            · split at h
              · exact ih _ _ _ _ h
              · split at h
                · exact ih _ _ _ _ h
                · simp at h
                  exact h.symm
            · simp at h
              exact h.symm
          · split at h
            · split at h
              · split at h
                · exact ih _ _ _ _ h
                · split at h
                  · exact ih _ _ _ _ h
                  · simp at h
                    exact h.symm
              · simp at h
                exact h.symm
            · simp at h
              exact h.symm

/-- Witness for the failed-update atomicity theorem: `update(v, 5)` on a
variable fixed at `0` fails, and the theorem yields that the state is
unchanged. -/
theorem update_failure_atomic_witness :
    update 3 updAtomicState 0 5 = some (false, updAtomicState) ∧
      updAtomicState = updAtomicState :=
  ⟨by decide, update_failure_atomic 3 updAtomicState 0 5 updAtomicState (by decide)⟩

/-- C1: `update(x, 0)` on `addBugState` returns true yet leaves the add
definition `r = 0 + 1·x` violated (`value(r) = 1` while the recomputed sum
is `0`): the propagation loop tests `sum != ad.m_coeff` (line 622) instead
of `sum != value(ad.m_var)`, so a sum that happens to equal the constant
coefficient is never pushed to the output variable — contradicting the
source's own `invariant()` assertion `SASSERT(sum == value(ad.m_var))`. -/
theorem update_add_definition_violated :
    (update 3 addBugState 0 0).map Prod.fst = some true ∧
    (update 3 addBugState 0 0).map (fun p => value p.2 0) = some 0 ∧
    (update 3 addBugState 0 0).map (fun p => value p.2 1) = some 1 ∧
    (update 3 addBugState 0 0).map (fun p => addInvariantHolds p.2) = some false := by
  refine ⟨by decide, by decide, by decide, by decide⟩

/-- C4: on the op definition registered for `mod(x, 0)` with `value(x) = 3`
and `value(result) = 5`, `repair_up` assigns `mod(5, 3) = 2`, not `0`,
although the expression's second operand `y = 0`: the zero guard tests
`value(m_arg2) = value(x)`, and `y` was never evaluated by `mk_op` (which
divides by `value(v)` of the freshly created result variable — hence the
last conjunct: the initial evaluation returns `0` whatever `y` is). -/
theorem repair_up_mod_ignores_second_operand :
    (repairUp 3 opBugState 0).map (fun s' => value s' 0) = some 2 ∧
    ((2 : Int) ≠ 0) ∧
    mkOpInitialVal opBugState ArithOp.OP_MOD 2 1 = some 0 := by
  refine ⟨by decide, by decide, by decide⟩

/-- Ceiling division against a positive divisor overshoots the target:
`m * div(δ + m - 1, m) ≥ δ`. -/
lemma tdiv_ceil_ge (m δ : Int) (hm : 0 < m) (hδ : 1 ≤ δ) :
    δ ≤ m * ((δ + m - 1).tdiv m) := by
  have ha : 0 ≤ δ + m - 1 := by omega
  rw [Int.tdiv_eq_ediv ha (le_of_lt hm)]
  have h1 := Int.ediv_add_emod (δ + m - 1) m
  have h2 := Int.emod_lt_of_pos (δ + m - 1) hm
  have h3 := Int.emod_nonneg (δ + m - 1) (ne_of_gt hm)
  linarith

/-- `divide`'s defining property for integer-sorted variables: for any
nonzero coefficient and positive target `δ`, the move it returns shifts the
linear form by at least `δ` in the coefficient's direction. -/
lemma coeff_mul_divide_ge (c δ : Int) (hc : c ≠ 0) (hδ : 1 ≤ δ) :
    δ ≤ c * ((δ + |c| - 1).tdiv c) := by
  rcases lt_or_gt_of_ne hc with hneg | hpos
  · have hm : 0 < -c := by omega
    have h1 : (δ + -c - 1).tdiv c = -((δ + -c - 1).tdiv (-c)) := by
      have h0 := Int.tdiv_neg (δ + -c - 1) (-c)
      simp only [neg_neg] at h0
      exact h0
    have h2 := tdiv_ceil_ge (-c) δ hm hδ
    rw [abs_of_neg hneg, h1]
    linarith
  · rw [abs_of_pos hpos]
    exact tdiv_ceil_ge c δ hpos hδ

/-- `move_to_bounds` succeeds exactly when its final value lies in bounds
and achieves the transition, provided the variable's current value is in
bounds and the tentative value achieves the transition (the source's
`VERIFY(well_formed())` at entry). -/
lemma moveToBounds_characterization (s : EState) (i : ZIneq) (v : Nat)
    (coeff t : Int) (hin : inBounds s v (value s v) = true)
    (ht : transitionOk s i v coeff t = true) :
    (moveToBounds s i v coeff t).1 = true ↔
      inBounds s v (moveToBounds s i v coeff t).2 = true ∧
      transitionOk s i v coeff (moveToBounds s i v coeff t).2 = true := by
  unfold moveToBounds
  rw [hin]
  simp only [Bool.not_true, Bool.false_eq_true, if_false]
  by_cases h2 : inBounds s v t = true
  · rw [if_pos h2]
    simp [h2, ht]
  · rw [if_neg h2]
    simp only [Bool.and_eq_true]
    tauto

/-- C3 (amended): `cm` fails on every fixed variable; and when the chosen
integer-sorted variable's current value lies within its bounds (with a
nonzero coefficient), `cm` returns true exactly when the final proposed
`new_value` lies within the bounds and achieves the intended truth
transition.  When the current value is already out of bounds, `cm` instead
returns true without the bounds check (see the counterexample). -/
theorem cm_characterization (s : EState) (i : ZIneq) (v : Nat) (coeff : Int)
    (rng : List Nat) :
    (isFixed s v = true → (cmCore s i v coeff rng).1 = false) ∧
    (isFixed s v = false → isInt s v = true → coeff ≠ 0 →
      inBounds s v (value s v) = true →
      ((cmCore s i v coeff rng).1 = true ↔
        inBounds s v (cmCore s i v coeff rng).2 = true ∧
        transitionOk s i v coeff (cmCore s i v coeff rng).2 = true)) := by
  constructor
  · intro hfix
    simp [cmCore, hfix]
  · intro hfix hint hc hin
    have hdiv : ∀ δ : Int, 1 ≤ δ → δ ≤ coeff * divideZ s v δ coeff := by
      intro δ hδ
      unfold divideZ
      rw [if_pos hint]
      exact coeff_mul_divide_ge coeff δ hc hδ
    rcases hT : i.isTrue with hf | ht
    · -- atom currently false
      cases hop : i.m_op with
      | LE =>
          have hAB : i.m_args_value > -i.m_coeff := by
            have := hT
            unfold ZIneq.isTrue at this
            rw [hop] at this
            simp at this
            omega
          set r10 : Int := ((rng.headD 0 % 10 : Nat) : Int) with hr10
          set r3 : Int := ((rng.tail.headD 0 % 3 : Nat) : Int) with hr3
          have hr10n : 0 ≤ r10 := by positivity
          have hr3n : 0 ≤ r3 := by positivity
          set δ : Int := i.m_args_value - -i.m_coeff + r10 + r3 with hδdef
          have hδ : 1 ≤ δ := by omega
          have hcd := hdiv δ hδ
          have htok : transitionOk s i v coeff
              (value s v - divideZ s v δ coeff) = true := by
            unfold transitionOk
            rw [hT, hop]
            simp only [Bool.false_eq_true, if_false]
            have : i.m_args_value + coeff * (value s v - divideZ s v δ coeff - value s v)
                = i.m_args_value - coeff * divideZ s v δ coeff := by ring
            rw [this]
            simp only [decide_eq_true_eq]
            omega
          have hres : cmCore s i v coeff rng =
              moveToBounds s i v coeff (value s v - divideZ s v δ coeff) := by
            unfold cmCore
            rw [if_neg (by simp [hfix]), hT, hop]
            simp only [Bool.false_eq_true, if_false]
          rw [hres]
          exact moveToBounds_characterization s i v coeff _ hin htok
      | LT =>
          have hAB : i.m_args_value ≥ -i.m_coeff := by
            have := hT
            unfold ZIneq.isTrue at this
            rw [hop] at this
            simp at this
            omega
          set r10 : Int := ((rng.headD 0 % 10 : Nat) : Int) with hr10
          set r3 : Int := ((rng.tail.headD 0 % 3 : Nat) : Int) with hr3
          have hr10n : 0 ≤ r10 := by positivity
          have hr3n : 0 ≤ r3 := by positivity
          set δ : Int := i.m_args_value - -i.m_coeff + 1 + r10 + r3 with hδdef
          have hδ : 1 ≤ δ := by omega
          have hcd := hdiv δ hδ
          have htok : transitionOk s i v coeff
              (value s v - divideZ s v δ coeff) = true := by
            unfold transitionOk
            rw [hT, hop]
            simp only [Bool.false_eq_true, if_false]
            have : i.m_args_value + coeff * (value s v - divideZ s v δ coeff - value s v)
                = i.m_args_value - coeff * divideZ s v δ coeff := by ring
            rw [this]
            simp only [decide_eq_true_eq]
            omega
          have hres : cmCore s i v coeff rng =
              moveToBounds s i v coeff (value s v - divideZ s v δ coeff) := by
            unfold cmCore
            rw [if_neg (by simp [hfix]), hT, hop]
            simp only [Bool.false_eq_true, if_false]
          rw [hres]
          exact moveToBounds_characterization s i v coeff _ hin htok
      | EQ =>
          set δ : Int := i.m_args_value - -i.m_coeff with hδdef
          set t : Int := if δ < 0 then value s v + divideZ s v |δ| coeff
                         else value s v - divideZ s v δ coeff with htdef
          have hsolved : transitionOk s i v coeff t = true ↔
              i.m_args_value + coeff * (t - value s v) = -i.m_coeff := by
            unfold transitionOk
            rw [hT, hop]
            simp
          by_cases hs : i.m_args_value + coeff * (t - value s v) = -i.m_coeff
          · have hres : cmCore s i v coeff rng = moveToBounds s i v coeff t := by
              unfold cmCore
              rw [if_neg (by simp [hfix]), hT, hop]
              simp only [Bool.false_eq_true, if_false]
              rw [← htdef, if_pos hs]
            rw [hres]
            exact moveToBounds_characterization s i v coeff _ hin (hsolved.mpr hs)
          · have hres : cmCore s i v coeff rng = (false, t) := by
              unfold cmCore
              rw [if_neg (by simp [hfix]), hT, hop]
              simp only [Bool.false_eq_true, if_false]
              rw [← htdef, if_neg hs]
            rw [hres]
            simp only [Bool.false_eq_true, false_iff, not_and]
            intro _
            intro hcontra
            exact hs (hsolved.mp hcontra)
    · -- atom currently true
      cases hop : i.m_op with
      | LE =>
          have hAB : i.m_args_value ≤ -i.m_coeff := by
            have := hT
            unfold ZIneq.isTrue at this
            rw [hop] at this
            simp at this
            omega
          set r3 : Int := ((rng.headD 0 % 3 : Nat) : Int) with hr3
          have hr3n : 0 ≤ r3 := by positivity
          set δ : Int := |i.m_args_value - -i.m_coeff - 1 - r3| with hδdef
          have hδeq : δ = -i.m_coeff - i.m_args_value + 1 + r3 := by
            rw [hδdef, abs_of_neg (by omega)]
            ring
          have hδ : 1 ≤ δ := by omega
          have hcd := hdiv δ hδ
          have htok : transitionOk s i v coeff
              (value s v + divideZ s v δ coeff) = true := by
            unfold transitionOk
            rw [hT, hop]
            simp only [if_true]
            have : i.m_args_value + coeff * (value s v + divideZ s v δ coeff - value s v)
                = i.m_args_value + coeff * divideZ s v δ coeff := by ring
            rw [this]
            simp only [decide_eq_true_eq]
            omega
          have hres : cmCore s i v coeff rng =
              moveToBounds s i v coeff (value s v + divideZ s v δ coeff) := by
            unfold cmCore
            rw [if_neg (by simp [hfix]), hT, hop]
            simp only [if_true]
          rw [hres]
          exact moveToBounds_characterization s i v coeff _ hin htok
      | LT =>
          have hAB : i.m_args_value < -i.m_coeff := by
            have := hT
            unfold ZIneq.isTrue at this
            rw [hop] at this
            simp at this
            omega
          set r3 : Int := ((rng.headD 0 % 3 : Nat) : Int) with hr3
          have hr3n : 0 ≤ r3 := by positivity
          set δ : Int := |i.m_args_value - -i.m_coeff| + r3 with hδdef
          have hδeq : δ = -i.m_coeff - i.m_args_value + r3 := by
            rw [hδdef, abs_of_neg (by omega)]
            ring
          have hδ : 1 ≤ δ := by omega
          have hcd := hdiv δ hδ
          have htok : transitionOk s i v coeff
              (value s v + divideZ s v δ coeff) = true := by
            unfold transitionOk
            rw [hT, hop]
            simp only [if_true]
            have : i.m_args_value + coeff * (value s v + divideZ s v δ coeff - value s v)
                = i.m_args_value + coeff * divideZ s v δ coeff := by ring
            rw [this]
            simp only [decide_eq_true_eq]
            omega
          have hres : cmCore s i v coeff rng =
              moveToBounds s i v coeff (value s v + divideZ s v δ coeff) := by
            unfold cmCore
            rw [if_neg (by simp [hfix]), hT, hop]
            simp only [if_true]
          rw [hres]
          exact moveToBounds_characterization s i v coeff _ hin htok
      | EQ =>
          have hAB : i.m_args_value = -i.m_coeff := by
            have := hT
            unfold ZIneq.isTrue at this
            rw [hop] at this
            simp at this
            omega
          set r10 : Int := ((rng.headD 0 % 10 : Nat) : Int) with hr10
          have hr10n : 0 ≤ r10 := by positivity
          set sgn : Int := if rng.tail.headD 0 % 2 = 0 then 1 else -1 with hsgn
          set δ : Int := abs (|i.m_args_value - -i.m_coeff| + 1 + r10) with hδdef
          have hδeq : δ = 1 + r10 := by
            rw [hδdef, hAB]
            simp
            omega
          have hδ : 1 ≤ δ := by omega
          have hcd := hdiv δ hδ
          have hsgncases : sgn = 1 ∨ sgn = -1 := by
            rw [hsgn]
            split <;> simp
          have htok : transitionOk s i v coeff
              (value s v + sgn * divideZ s v δ coeff) = true := by
            unfold transitionOk
            rw [hT, hop]
            simp only [if_true]
            have : i.m_args_value + coeff * (value s v + sgn * divideZ s v δ coeff - value s v)
                = i.m_args_value + sgn * (coeff * divideZ s v δ coeff) := by ring
            rw [this]
            simp only [ne_eq, decide_eq_true_eq]
            rcases hsgncases with h1 | h1 <;> rw [h1] <;> omega
          have hres : cmCore s i v coeff rng =
              moveToBounds s i v coeff (value s v + sgn * divideZ s v δ coeff) := by
            unfold cmCore
            rw [if_neg (by simp [hfix]), hT, hop]
            simp only [if_true]
          rw [hres]
          exact moveToBounds_characterization s i v coeff _ hin htok

/-- C3 counterexample: `cm` returns true with a final `new_value` (21) that
is outside the variable's bounds `[0, 3]`: when the current value is itself
out of bounds, `move_to_bounds` returns true immediately (line 173-174)
without the bounds check the claim asserts. -/
theorem cm_counterexample :
    (cmCore cmOobState cmOobIneq 0 1 [0]).1 = true ∧
    (cmCore cmOobState cmOobIneq 0 1 [0]).2 = 21 ∧
    inBounds cmOobState 0 (cmCore cmOobState cmOobIneq 0 1 [0]).2 = false := by
  refine ⟨by decide, by decide, by decide⟩

/-- Witness for the `cm` characterization at a concrete in-bounds input. -/
theorem cm_characterization_witness :
    isFixed cmInState 0 = false ∧ isInt cmInState 0 = true ∧ ((1:Int) ≠ 0) ∧
    inBounds cmInState 0 (value cmInState 0) = true ∧
    ((cmCore cmInState cmInIneq 0 1 [0]).1 = true ↔
      inBounds cmInState 0 (cmCore cmInState cmInIneq 0 1 [0]).2 = true ∧
      transitionOk cmInState cmInIneq 0 1 (cmCore cmInState cmInIneq 0 1 [0]).2 = true) :=
  ⟨by decide, by decide, by decide, by decide,
    (cm_characterization cmInState cmInIneq 0 1 [0]).2 (by decide) (by decide)
      (by decide) (by decide)⟩

/-- C2 (amended): starting from `x = y = 0`, `solve_eq_pairs` on
`2x + 3y = 7` returns false and changes neither variable, for every Bézout
pair the extended gcd can return: the scaled particular solution `x0 = 7·x0b`
is nonzero (no solution of `2x + 3y = 7` has `x = 0`), so the stability
heuristic `abs(value(x)) * 2 < abs(x0)` — `0 < |x0|` here — rejects the
move before any update. -/
theorem solve_eq_pairs_zero_start_rejected (x0b y0b : Int)
    (hbez : 2 * x0b + 3 * y0b = 1) :
    solveEqPairs2With 10 eqPairState 1 x0b y0b 2 0 3 1 7 =
      some (false, eqPairState) := by
  have hx0 : x0b ≠ 0 := by
    intro h
    rw [h] at hbez
    omega
  have h7 : (7:Int).tdiv 1 = 7 := by decide
  unfold solveEqPairs2With
  rw [if_neg (by decide), if_neg (by decide)]
  have hlo0 : (getVar eqPairState 0).m_lo = none := by decide
  have hhi0 : (getVar eqPairState 0).m_hi = none := by decide
  have hlo1 : (getVar eqPairState 1).m_lo = none := by decide
  have hhi1 : (getVar eqPairState 1).m_hi = none := by decide
  rw [hlo0, hhi0, hlo1, hhi1]
  simp only [adjustLo, adjustHi, h7, Option.any_none, Bool.false_eq_true, if_false]
  have hval0 : value eqPairState 0 = 0 := by decide
  rw [if_neg (by rw [hval0]; exact fun h => hx0 (by omega)),
      if_pos (by rw [hval0]; simp; omega)]

/-- Witness for the stability-rejection theorem at the Bézout pair
`(-1, 1)` (`2·(-1) + 3·1 = 1`). -/
theorem solve_eq_pairs_zero_start_rejected_witness :
    2 * (-1 : Int) + 3 * (1 : Int) = 1 ∧
    solveEqPairs2With 10 eqPairState 1 (-1) 1 2 0 3 1 7 =
      some (false, eqPairState) :=
  ⟨by norm_num, solve_eq_pairs_zero_start_rejected (-1) 1 (by norm_num)⟩

/-- C2 counterexample: on the atom `2x + 3y = 7` with no bounds and start
`x = y = 0`, `solve_eq_pairs` returns false and both variables remain `0`,
contradicting the claim that it returns true with `2·value(x) + 3·value(y)
= 7`. -/
theorem solve_eq_pairs_counterexample :
    solveEqPairsIneq 10 eqPairState eqPairIneq 0 = some (false, eqPairState) ∧
    value eqPairState 0 = 0 ∧ value eqPairState 1 = 0 ∧
    2 * value eqPairState 0 + 3 * value eqPairState 1 ≠ 7 := by
  refine ⟨by decide, by decide, by decide, by decide⟩

/-- C5 counterexample: after the public entry point `initialize()` returns
on the unit literals `x ≤ -1` and `x ≥ -5`, the variable `x` carries both
bounds `[-5, -1]` but still holds its creation value `0`: `initialize`
records bounds without moving values, so the claimed invariant is false. -/
theorem initialize_bounds_counterexample :
    boundsInvariantHolds
      (initializeMain bndCtxAtoms [(0, false), (1, false)] ⟨⟨[], [], [], [], [], []⟩, []⟩).es
      = false ∧
    value (initializeMain bndCtxAtoms [(0, false), (1, false)] ⟨⟨[], [], [], [], [], []⟩, []⟩).es 0 = 0 ∧
    (getVar (initializeMain bndCtxAtoms [(0, false), (1, false)] ⟨⟨[], [], [], [], [], []⟩, []⟩).es 0).m_lo
      = some ⟨false, -5⟩ ∧
    (getVar (initializeMain bndCtxAtoms [(0, false), (1, false)] ⟨⟨[], [], [], [], [], []⟩, []⟩).es 0).m_hi
      = some ⟨false, -1⟩ := by
  refine ⟨by decide, by decide, by decide, by decide⟩

lemma bndEq_refl (s : EState) : bndEq s s := fun _ => ⟨rfl, rfl⟩

lemma bndEq_trans {s1 s2 s3 : EState} (h1 : bndEq s1 s2) (h2 : bndEq s2 s3) :
    bndEq s1 s3 :=
  fun w => ⟨(h2 w).1.trans (h1 w).1, (h2 w).2.trans (h1 w).2⟩

lemma inBounds_congr {s s' : EState} (h : bndEq s s') (w : Nat) (x : Int) :
    inBounds s' w x = inBounds s w x := by
  simp only [inBounds]
  rw [(h w).1, (h w).2]

lemma getVar_of_vars_eq {s s' : EState} (h : s'.m_vars = s.m_vars) (w : Nat) :
    getVar s' w = getVar s w := by
  unfold getVar
  rw [h]

lemma bndEq_of_vars_eq {s s' : EState} (h : s'.m_vars = s.m_vars) : bndEq s s' :=
  fun w => by rw [getVar_of_vars_eq h]; exact ⟨rfl, rfl⟩

lemma updBoolVarsStep_m_vars (d : Int) (s : EState) (p : Int × Nat) :
    (updBoolVarsStep d s p).m_vars = s.m_vars := by
  unfold updBoolVarsStep
  cases getAtom s p.2 with
  | none => rfl
  | some a =>
      simp only []
      split <;> rfl

lemma updBoolVars_m_vars (d : Int) :
    ∀ (bvs : List (Int × Nat)) (s : EState),
      (updBoolVars d bvs s).m_vars = s.m_vars := by
  intro bvs
  induction bvs with
  | nil => intro s; rfl
  | cons p bvs ih =>
      intro s
      unfold updBoolVars at ih ⊢
      rw [List.foldl_cons, ih, updBoolVarsStep_m_vars]

lemma getVar_setVarValue (s : EState) (v : Nat) (n : Int) (w : Nat) :
    getVar (setVarValue s v n) w = getVar s w ∨
    (w = v ∧ getVar (setVarValue s v n) w = { getVar s v with m_value := n }) := by
  by_cases hw : v = w
  · subst hw
    rcases Nat.lt_or_ge v s.m_vars.length with hlt | hge
    · right
      refine ⟨rfl, ?_⟩
      show (s.m_vars.set v _).getD v default = _
      rw [List.getD_eq_getElem?_getD, List.getElem?_set_self hlt]
      rfl
    · left
      show (s.m_vars.set v _).getD v default = _
      rw [List.set_eq_of_length_le hge]
      rfl
  · left
    show (s.m_vars.set v _).getD w default = _
    rw [List.getD_eq_getElem?_getD, List.getElem?_set_ne hw]
    rw [← List.getD_eq_getElem?_getD]
    rfl

lemma bndEq_setVarValue (s : EState) (v : Nat) (n : Int) :
    bndEq s (setVarValue s v n) := by
  intro w
  rcases getVar_setVarValue s v n w with h | ⟨hw, h⟩
  · rw [h]; exact ⟨rfl, rfl⟩
  · subst hw
    rw [h]
    exact ⟨rfl, rfl⟩

lemma value_setVarValue (s : EState) (v : Nat) (n : Int) (w : Nat) :
    value (setVarValue s v n) w = value s w ∨
    (w = v ∧ value (setVarValue s v n) w = n) := by
  rcases getVar_setVarValue s v n w with h | ⟨hw, h⟩
  · left; unfold value; rw [h]
  · right
    subst hw
    exact ⟨rfl, by unfold value; rw [h]⟩

lemma valsOkFrom_refl (s : EState) : valsOkFrom s s := fun _ => Or.inl rfl

lemma valsOkFrom_trans {s0 s1 s2 : EState} (h1 : valsOkFrom s0 s1)
    (h2 : valsOkFrom s1 s2) (hb : bndEq s1 s2) : valsOkFrom s0 s2 := by
  intro w
  rcases h2 w with h | h
  · rcases h1 w with h' | h'
    · exact Or.inl (h.trans h')
    · right
      rw [inBounds_congr hb, h]
      exact h'
  · exact Or.inr h

lemma propagateMulsStep_props (upd : EState → Nat → Int → Option (Bool × EState))
    (hupd : ∀ st w m b st', upd st w m = some (b, st') →
      bndEq st st' ∧ valsOkFrom st st')
    (st : EState) (idx : Nat) (st' : EState)
    (h : propagateMulsStep upd st idx = some st') :
    bndEq st st' ∧ valsOkFrom st st' := by
  simp only [propagateMulsStep] at h
  split at h
  · rcases Option.map_eq_some'.mp h with ⟨⟨b, st1⟩, hup, heq⟩
    cases heq
    exact hupd _ _ _ _ _ hup
  · cases h
    exact ⟨bndEq_refl _, valsOkFrom_refl _⟩

lemma propagateAddsStep_props (upd : EState → Nat → Int → Option (Bool × EState))
    (hupd : ∀ st w m b st', upd st w m = some (b, st') →
      bndEq st st' ∧ valsOkFrom st st')
    (st : EState) (idx : Nat) (st' : EState)
    (h : propagateAddsStep upd st idx = some st') :
    bndEq st st' ∧ valsOkFrom st st' := by
  simp only [propagateAddsStep] at h
  split at h
  · rcases Option.map_eq_some'.mp h with ⟨⟨b, st1⟩, hup, heq⟩
    cases heq
    exact hupd _ _ _ _ _ hup
  · cases h
    exact ⟨bndEq_refl _, valsOkFrom_refl _⟩

lemma foldlM_props (step : EState → Nat → Option EState)
    (hstep : ∀ st idx st', step st idx = some st' →
      bndEq st st' ∧ valsOkFrom st st') :
    ∀ (idxs : List Nat) (s s' : EState),
      List.foldlM step s idxs = some s' → bndEq s s' ∧ valsOkFrom s s' := by
  intro idxs
  induction idxs with
  | nil =>
      intro s s' h
      cases h
      exact ⟨bndEq_refl _, valsOkFrom_refl _⟩
  | cons idx idxs ih =>
      intro s s' h
      rw [List.foldlM_cons] at h
      cases hstep1 : step s idx with
      | none => rw [hstep1] at h; cases h
      | some s1 =>
          rw [hstep1] at h
          simp only [Option.bind_eq_bind, Option.some_bind] at h
          obtain ⟨hb1, hv1⟩ := hstep s idx s1 hstep1
          obtain ⟨hb2, hv2⟩ := ih s1 s' h
          exact ⟨bndEq_trans hb1 hb2, valsOkFrom_trans hv1 hv2 hb2⟩

/-- Inductive core: every `update` run keeps the bounds tables intact and
leaves every variable's value either unchanged or within its bounds. -/
lemma update_state_props (fuel : Nat) :
    ∀ (s : EState) (v : Nat) (n : Int) (b : Bool) (s' : EState),
      update fuel s v n = some (b, s') → bndEq s s' ∧ valsOkFrom s s' := by
  induction fuel with
  | zero => intro s v n b s' h; simp [update] at h
  | succ fuel ih =>
      have hupd : ∀ st w m bb st', update fuel st w m = some (bb, st') →
          bndEq st st' ∧ valsOkFrom st st' := fun st w m bb st' h => ih st w m bb st' h
      intro s v n b s' h
      simp only [update] at h
      split at h
      · cases h
        exact ⟨bndEq_refl _, valsOkFrom_refl _⟩
      · split at h
        · -- in-bounds success path
          rename_i hold hin
          split at h
          · cases h
          · rename_i s3 hmul
            split at h
            · cases h
            · rename_i s4 hadd
              cases h
              have hb1 : bndEq s (updBoolVars (n - (getVar s v).m_value)
                  (getVar s v).m_bool_vars s) :=
                bndEq_of_vars_eq (updBoolVars_m_vars _ _ _)
              have hv1 : valsOkFrom s (updBoolVars (n - (getVar s v).m_value)
                  (getVar s v).m_bool_vars s) := by
                intro w
                left
                unfold value
                rw [getVar_of_vars_eq (updBoolVars_m_vars _ _ _)]
              set s1 := updBoolVars (n - (getVar s v).m_value)
                  (getVar s v).m_bool_vars s with hs1
              have hb2 : bndEq s1 (setVarValue s1 v n) := bndEq_setVarValue s1 v n
              have hv2 : valsOkFrom s1 (setVarValue s1 v n) := by
                intro w
                rcases value_setVarValue s1 v n w with hvv | ⟨hw, hvv⟩
                · exact Or.inl hvv
                · subst hw
                  right
                  rw [hvv, inBounds_congr hb2, inBounds_congr hb1]
                  exact hin
              set s2 := setVarValue s1 v n with hs2
              obtain ⟨hb3, hv3⟩ := foldlM_props _
                (propagateMulsStep_props (update fuel) hupd) _ s2 s3 hmul
              obtain ⟨hb4, hv4⟩ := foldlM_props _
                (propagateAddsStep_props (update fuel) hupd) _ s3 s' hadd
              have hb12 := bndEq_trans hb1 hb2
              have hb123 := bndEq_trans hb12 hb3
              have hv12 := valsOkFrom_trans hv1 hv2 hb2
              have hv123 := valsOkFrom_trans hv12 hv3 hb3
              exact ⟨bndEq_trans hb123 hb4, valsOkFrom_trans hv123 hv4 hb4⟩
        · split at h
          · split at h
            · split at h
              · exact ih _ _ _ _ _ h
              · split at h
                · exact ih _ _ _ _ _ h
                · cases h
                  exact ⟨bndEq_refl _, valsOkFrom_refl _⟩
            · cases h
              exact ⟨bndEq_refl _, valsOkFrom_refl _⟩
          · split at h
            · split at h
              · split at h
                · exact ih _ _ _ _ _ h
                · split at h
                  · exact ih _ _ _ _ _ h
                  · cases h
                    exact ⟨bndEq_refl _, valsOkFrom_refl _⟩
              · cases h
                exact ⟨bndEq_refl _, valsOkFrom_refl _⟩
            · cases h
              exact ⟨bndEq_refl _, valsOkFrom_refl _⟩

/-- C5 (amended): whenever `update(v, n)` returns, every variable's value
is either unchanged or lies within that variable's bounds (strict bounds
strictly); the claimed invariant over all public entry points fails only at
`initialize`, which records fresh bounds without moving values (see the
counterexample). -/
theorem update_changed_values_in_bounds (fuel : Nat) (s : EState) (v : Nat)
    (n : Int) (b : Bool) (s' : EState) (h : update fuel s v n = some (b, s'))
    (w : Nat) :
    value s' w = value s w ∨ inBounds s' w (value s' w) = true :=
  (update_state_props fuel s v n b s' h).2 w

/-- Witness for the bound-preservation theorem at a concrete update. -/
theorem update_changed_values_in_bounds_witness :
    update 2 updBndState 0 5 = some (true, updBndStateAfter) ∧
    (value updBndStateAfter 0 = value updBndState 0 ∨
     inBounds updBndStateAfter 0 (value updBndStateAfter 0) = true) :=
  ⟨by decide,
   update_changed_values_in_bounds 2 updBndState 0 5 true updBndStateAfter
     (by decide) 0⟩

end SlsArith

